import Mathlib

set_option maxRecDepth 10000

/-!
# Verification of the Campus Life Planner core

A shallow embedding in Lean 4 of the validation & search engine and the
reactive task store of the campus-life-planner repository
(`scripts/state.js`, `scripts/search.js`, `scripts/storage.js`,
`scripts/validators.js`), together with theorems settling the frozen
claims about the specification.

Modelling conventions:
* JavaScript numbers are modelled by `ℚ` (every JavaScript double is a
  dyadic rational, hence has a finite decimal expansion; `NaN` never
  arises on the validated paths exercised by the claims).
* JavaScript strings are Lean `String`s / `List Char`.
* Exceptions are modelled with `Except`/`Option`; a JS function that
  cannot throw is modelled by a total Lean function.
* `Date.now()`, `Math.random()` and `new Date().toISOString()` are
  nondeterministic inputs and are passed to the store operations as
  explicit parameters.
-/

/-! ## Decimal digits and number strings -/

/-- The character for a decimal digit. -/
def digitChar (d : Nat) : Char := Char.ofNat (48 + d)

/-- Numeric value of a digit character. -/
def digitVal (c : Char) : Nat := c.toNat - 48

/-- Little-endian list of decimal digits, fuel-based (the number of
digits is at most the number itself, so fuel `n` suffices for `n`). -/
def natDigitsLEF : Nat → Nat → List Nat
  | 0, _ => []
  | f + 1, n => if n = 0 then [] else n % 10 :: natDigitsLEF f (n / 10)

/-- Little-endian list of decimal digits of a natural number. -/
def natDigitsLE (n : Nat) : List Nat := natDigitsLEF n n

/-- Big-endian digit characters of a natural number (`"0"` for zero);
models how JavaScript prints a non-negative integer. -/
def natChars (n : Nat) : List Char :=
  if n = 0 then ['0'] else (natDigitsLE n).reverse.map digitChar

/-- Decimal string of a natural number. -/
def natToStr (n : Nat) : String := ⟨natChars n⟩

/-- The whitespace characters recognised by the model (a subset of the
JavaScript `\s` class sufficient for the inputs in the claims). -/
def jsIsSpace (c : Char) : Bool :=
  c = ' ' ∨ c = '\t' ∨ c = '\n' ∨ c = '\r' ∨ c = '\x0b' ∨ c = '\x0c'

/-- Model of JavaScript `String.prototype.trim`: drop whitespace from
both ends. -/
def trimL (cs : List Char) : List Char :=
  ((cs.dropWhile jsIsSpace).reverse.dropWhile jsIsSpace).reverse

/-- String-level wrapper for the `trim` model. -/
def jsTrim (s : String) : String := ⟨trimL s.data⟩

/-- Greedy digit reader: accumulated value, number of digits read, rest. -/
def readDigitsAux : List Char → Nat → Nat → Nat × Nat × List Char
  | c :: cs, acc, n =>
    if c.isDigit then readDigitsAux cs (acc * 10 + digitVal c) (n + 1)
    else (acc, n, c :: cs)
  | [], acc, n => (acc, n, [])

/-- Model of JavaScript `parseFloat` restricted to plain decimal
notation (optional sign, integer part, optional fractional part).  The
exponent notation is outside the modelled subset, and the `NaN` result
(no digits at all) is mapped to `0`: on every path exercised here the
argument has been pre-validated against the numeric pattern, so neither
case is reachable. -/
def jsParseFloat (s : String) : ℚ :=
  let cs := s.data.dropWhile jsIsSpace
  let signed : Bool × List Char :=
    match cs with
    | '-' :: r => (true, r)
    | '+' :: r => (false, r)
    | _ => (false, cs)
  let (ip, ni, rest) := readDigitsAux signed.2 0 0
  let fracRead : Nat × Nat × List Char :=
    match rest with
    | '.' :: r => readDigitsAux r 0 0
    | _ => (0, 0, rest)
  let (fp, nf, _) := fracRead
  if ni = 0 ∧ nf = 0 then 0
  else (if signed.1 then -1 else 1) * ((ip : ℚ) + (fp : ℚ) / (10 : ℚ) ^ nf)

/-! ## The task store (`scripts/state.js`)

The `AppState` class owns `tasks`, `settings` and `tags`; the listener
list is modelled separately (listeners are functions, represented below
by the outcome of invoking them).  The persistence calls (`saveTasks`
etc.) are fire-and-forget writes to an external collaborator and have
no effect on the in-memory state, so they are not represented. -/

structure Task' where
  id : String
  title : String
  dueDate : String
  duration : ℚ
  tag : String
  notes : String
  createdAt : String
  updatedAt : String
deriving DecidableEq, Repr

structure Settings' where
  durationUnit : String
  weeklyCap : ℚ
deriving DecidableEq, Repr

structure Store where
  tasks : List Task'
  settings : Settings'
  tags : List String
deriving DecidableEq, Repr

/-- The argument of `addTask` (the validated form payload); `notes` may
be absent (`undefined`), hence the `Option`. -/
structure AddInput where
  title : String
  date : String
  duration : String
  tag : String
  notes : Option String
deriving DecidableEq, Repr

/-- A partial update for `updateTask`: each field of the JS object
`updates` is either absent (`none`) or present. -/
structure TaskPatch where
  id : Option String
  title : Option String
  dueDate : Option String
  duration : Option ℚ
  tag : Option String
  notes : Option String
  createdAt : Option String
  updatedAt : Option String
deriving DecidableEq, Repr

/-- The all-absent patch. -/
def TaskPatch.empty : TaskPatch := ⟨none, none, none, none, none, none, none, none⟩

/-- The id template literal in `addTask`:
`` `task_${Date.now()}_${Math.random().toString(36).slice(2, 6)}` ``.
`Date.now()` and the random suffix are explicit parameters. -/
def genId (nowMs : Nat) (rand : String) : String :=
  "task_" ++ natToStr nowMs ++ "_" ++ rand

/-- `addTask(task)` from `state.js`: builds the new record, `unshift`s
it onto the collection, persists and notifies `taskAdded`.  Returns the
new store, the created record and the emitted event names. -/
def addTask (s : Store) (task : AddInput) (nowIso : String) (nowMs : Nat)
    (rand : String) : Store × Task' × List String :=
  let newTask : Task' :=
    { id := genId nowMs rand
      title := jsTrim task.title
      dueDate := task.date
      duration := jsParseFloat task.duration
      tag := jsTrim task.tag
      notes := jsTrim (task.notes.getD "")
      createdAt := nowIso
      updatedAt := nowIso }
  ({ s with tasks := newTask :: s.tasks }, newTask, ["taskAdded"])

/-- The merge `{ ...this.tasks[idx], ...updates, updatedAt: now }`:
fields present in `updates` override the record; `updatedAt` is written
last and therefore always becomes `now`. -/
def applyPatch (t : Task') (p : TaskPatch) (nowIso : String) : Task' :=
  { id := p.id.getD t.id
    title := p.title.getD t.title
    dueDate := p.dueDate.getD t.dueDate
    duration := p.duration.getD t.duration
    tag := p.tag.getD t.tag
    notes := p.notes.getD t.notes
    createdAt := p.createdAt.getD t.createdAt
    updatedAt := nowIso }

/-- `findIndex` + in-place assignment: replace the first record whose id
matches, returning the new list and the merged record. -/
def updateFirst (id : String) (p : TaskPatch) (nowIso : String) :
    List Task' → Option (List Task' × Task')
  | [] => none
  | t :: rest =>
    if t.id = id then some (applyPatch t p nowIso :: rest, applyPatch t p nowIso)
    else (updateFirst id p nowIso rest).map (fun x => (t :: x.1, x.2))

/-- `updateTask(id, updates)` from `state.js`. -/
def updateTask (s : Store) (id : String) (updates : TaskPatch)
    (nowIso : String) : Store × Option Task' × List String :=
  match updateFirst id updates nowIso s.tasks with
  | none => (s, none, [])
  | some (ts, u) => ({ s with tasks := ts }, some u, ["taskUpdated"])

/-- `findIndex` + `splice(idx, 1)`: remove the first record whose id
matches. -/
def removeFirst (id : String) : List Task' → Option (List Task' × Task')
  | [] => none
  | t :: rest =>
    if t.id = id then some (rest, t)
    else (removeFirst id rest).map (fun x => (t :: x.1, x.2))

/-- `deleteTask(id)` from `state.js`. -/
def deleteTask (s : Store) (id : String) : Store × Bool × List String :=
  match removeFirst id s.tasks with
  | none => (s, false, [])
  | some (ts, _) => ({ s with tasks := ts }, true, ["taskDeleted"])

/-- `getTask(id)`: `this.tasks.find(t => t.id === id) || null`. -/
def getTask (s : Store) (id : String) : Option Task' :=
  s.tasks.find? (fun t => t.id = id)

/-- `replaceTasks(tasks)` from `state.js`. -/
def replaceTasks (s : Store) (ts : List Task') : Store × List String :=
  ({ s with tasks := ts }, ["tasksReplaced"])

/-- `addTag(tag)` from `state.js` (`push` only when not included). -/
def addTag (s : Store) (tag : String) : Store × List String :=
  if s.tags.contains tag then (s, [])
  else ({ s with tags := s.tags ++ [tag] }, ["tagsUpdated"])

/-- `removeTag(tag)` from `state.js`:
`this.tags = this.tags.filter(t => t !== tag)` — unconditional. -/
def removeTag (s : Store) (tag : String) : Store × List String :=
  ({ s with tags := s.tags.filter (fun t => t ≠ tag) }, ["tagsUpdated"])

/-! ## The change-notification layer

`_notify` runs `this._listeners.forEach(fn => fn(event, data))`.  A
subscriber is modelled by the outcome of invoking it (`Except.ok` for a
normal return, `Except.error` for a throw).  `forEach` does not catch:
an exception aborts the traversal and propagates. -/

/-- Outcome of invoking one subscriber. -/
abbrev LRes := Except String Unit

/-- The indices of the subscribers actually invoked by `forEach`, in
invocation order, together with the propagated outcome.  A throwing
subscriber ends the traversal. -/
def notifyTrace : List LRes → List Nat × LRes
  | [] => ([], Except.ok ())
  | Except.ok _ :: rest =>
    let r := notifyTrace rest
    (0 :: r.1.map (· + 1), r.2)
  | Except.error e :: _ => ([0], Except.error e)

/-- How many subscribers get invoked: all of them when none throws,
otherwise the throwing one and those registered before it. -/
def invokedCount : List LRes → Nat
  | [] => 0
  | Except.ok _ :: rest => invokedCount rest + 1
  | Except.error _ :: _ => 1

/-- No subscriber throws. -/
def throwsNone : List LRes → Bool
  | [] => true
  | Except.ok _ :: rest => throwsNone rest
  | Except.error _ :: _ => false

/-- The exception escaping a notification, if any. -/
def excOf : LRes → Option String
  | Except.ok _ => none
  | Except.error e => some e

/-- Outcome of a full mutating call: the resulting store, the returned
value, the indices of invoked subscribers, and the escaping exception. -/
structure MutationRun (ρ : Type) where
  store : Store
  ret : ρ
  invoked : List Nat
  exc : Option String
deriving DecidableEq, Repr

/-- `addTask` followed by `_notify('taskAdded', ...)`: the state is
mutated and persisted before the listeners run, so the resulting store
does not depend on the listeners; the exception of the first throwing
listener escapes to the caller. -/
def addTaskRun (s : Store) (ls : List LRes) (task : AddInput)
    (nowIso : String) (nowMs : Nat) (rand : String) : MutationRun Task' :=
  let r := addTask s task nowIso nowMs rand
  let n := notifyTrace ls
  ⟨r.1, r.2.1, n.1, excOf n.2⟩

/-- `updateTask` followed by `_notify('taskUpdated', ...)` in the found
case; the not-found case returns before any notification. -/
def updateTaskRun (s : Store) (ls : List LRes) (id : String)
    (updates : TaskPatch) (nowIso : String) : MutationRun (Option Task') :=
  match updateFirst id updates nowIso s.tasks with
  | none => ⟨s, none, [], none⟩
  | some (ts, u) =>
    let n := notifyTrace ls
    ⟨{ s with tasks := ts }, some u, n.1, excOf n.2⟩

/-- `deleteTask` followed by `_notify('taskDeleted', ...)` in the found
case. -/
def deleteTaskRun (s : Store) (ls : List LRes) (id : String) :
    MutationRun Bool :=
  match removeFirst id s.tasks with
  | none => ⟨s, false, [], none⟩
  | some (ts, _) =>
    let n := notifyTrace ls
    ⟨{ s with tasks := ts }, true, n.1, excOf n.2⟩

/-! ## Store lemmas -/

theorem notifyTrace_fst (ls : List LRes) :
    (notifyTrace ls).1 = List.range (invokedCount ls) := by
  induction ls with
  | nil => rfl
  | cons l rest ih =>
    cases l with
    | ok u =>
      simp only [notifyTrace, invokedCount, ih, List.range_succ_eq_map,
        Nat.succ_eq_add_one]
    | error e => rfl

theorem notifyTrace_exc (ls : List LRes) :
    excOf (notifyTrace ls).2 = none ↔ throwsNone ls = true := by
  induction ls with
  | nil => simp [notifyTrace, throwsNone, excOf]
  | cons l rest ih =>
    cases l with
    | ok u => simpa [notifyTrace, throwsNone, excOf] using ih
    | error e => simp [notifyTrace, throwsNone, excOf]

theorem updateTaskRun_store (s : Store) (ls : List LRes) (id : String)
    (p : TaskPatch) (now : String) :
    (updateTaskRun s ls id p now).store = (updateTask s id p now).1 := by
  unfold updateTaskRun updateTask
  cases updateFirst id p now s.tasks with
  | none => rfl
  | some x => cases x; rfl

theorem deleteTaskRun_store (s : Store) (ls : List LRes) (id : String) :
    (deleteTaskRun s ls id).store = (deleteTask s id).1 := by
  unfold deleteTaskRun deleteTask
  cases removeFirst id s.tasks with
  | none => rfl
  | some x => cases x; rfl

theorem updateFirst_id_map (id : String) (p : TaskPatch) (now : String)
    (hp : p.id = none) :
    ∀ ts ts' u, updateFirst id p now ts = some (ts', u) →
      ts'.map Task'.id = ts.map Task'.id ∧ u.id = id := by
  intro ts
  induction ts with
  | nil => intro ts' u h; simp [updateFirst] at h
  | cons t rest ih =>
    intro ts' u h
    simp only [updateFirst] at h
    by_cases ht : t.id = id
    · rw [if_pos ht] at h
      injection h with h'
      injection h' with h1 h2
      subst h1
      subst h2
      constructor
      · simp [applyPatch, hp, ht]
      · simp [applyPatch, hp, ht]
    · rw [if_neg ht] at h
      cases hrec : updateFirst id p now rest with
      | none => rw [hrec] at h; simp at h
      | some x =>
        rw [hrec] at h
        cases x with
        | mk l v =>
          simp only [Option.map_some'] at h
          injection h with h'
          injection h' with h1 h2
          subst h1
          subst h2
          obtain ⟨hl, hv⟩ := ih l v hrec
          exact ⟨by simp [hl], hv⟩

theorem updateFirst_eq_none (id : String) (p : TaskPatch) (now : String) :
    ∀ ts : List Task', (∀ t ∈ ts, t.id ≠ id) → updateFirst id p now ts = none := by
  intro ts
  induction ts with
  | nil => intro _; rfl
  | cons t rest ih =>
    intro h
    have ht : t.id ≠ id := h t (List.mem_cons_self t rest)
    simp [updateFirst, ht, ih fun x hx => h x (List.mem_cons_of_mem t hx)]

theorem removeFirst_eq_none (id : String) :
    ∀ ts : List Task', (∀ t ∈ ts, t.id ≠ id) → removeFirst id ts = none := by
  intro ts
  induction ts with
  | nil => intro _; rfl
  | cons t rest ih =>
    intro h
    have ht : t.id ≠ id := h t (List.mem_cons_self t rest)
    simp [removeFirst, ht, ih fun x hx => h x (List.mem_cons_of_mem t hx)]

/-! ## Concrete fixtures used by counterexamples and witnesses -/

def demoSettings : Settings' := ⟨"minutes", 0⟩

def demoStore : Store := ⟨[], demoSettings, ["Study"]⟩

def demoInput : AddInput := ⟨"T", "2025-01-01", "5", "Study", none⟩

def cexTask : Task' := ⟨"a", "T", "2025-01-01", 5, "Study", "", "c0", "c0"⟩

def cexIdPatch : TaskPatch := ⟨some "b", none, none, none, none, none, none, none⟩

/-! ## Claim C2 — subscriber notification -/

/-- Claim C2 counterexample: with two subscribers of which the first
throws, only subscriber 0 is invoked — the later-registered subscriber 1
is never run, refuting the claim that every later subscriber is still
invoked when one throws. -/
theorem claim2_counterexample :
    (addTaskRun demoStore [Except.error "boom", Except.ok ()] demoInput
      "t0" 0 "ab").invoked = [0]
    ∧ 1 ∉ (addTaskRun demoStore [Except.error "boom", Except.ok ()] demoInput
      "t0" 0 "ab").invoked := by
  decide

/-- Claim C2 (amended): subscribers are invoked synchronously in
registration order before the mutating method returns, but only up to
and including the first subscriber that throws; that exception escapes
to the mutating caller.  The store state produced by the mutation is the
same as with no subscribers at all (the mutation happens before the
notification), so a throwing subscriber never corrupts store state. -/
theorem claim2_notification (s : Store) (ls : List LRes) (task : AddInput)
    (nowIso : String) (nowMs : Nat) (rand : String) (id : String)
    (p : TaskPatch) (now2 : String) :
    (addTaskRun s ls task nowIso nowMs rand).store
      = (addTaskRun s [] task nowIso nowMs rand).store
    ∧ (addTaskRun s ls task nowIso nowMs rand).invoked
      = List.range (invokedCount ls)
    ∧ ((addTaskRun s ls task nowIso nowMs rand).exc = none
      ↔ throwsNone ls = true)
    ∧ (updateTaskRun s ls id p now2).store = (updateTaskRun s [] id p now2).store
    ∧ (deleteTaskRun s ls id).store = (deleteTaskRun s [] id).store := by
  refine ⟨rfl, notifyTrace_fst ls, notifyTrace_exc ls, ?_, ?_⟩
  · rw [updateTaskRun_store, updateTaskRun_store]
  · rw [deleteTaskRun_store, deleteTaskRun_store]

/-! ## Claim C3 — id uniqueness and immutability -/

/-- Claim C3 counterexample: `updateTask` merges the patch with a spread
after the existing record, so a patch containing an `id` field reassigns
the record id: updating task `"a"` with a patch carrying `id: "b"`
returns a record whose id is `"b"`, not the original `"a"`. -/
theorem claim3_counterexample :
    ((updateTask ⟨[cexTask], demoSettings, []⟩ "a" cexIdPatch "t1").2.1.map
      Task'.id) = some "b"
    ∧ ("b" : String) ≠ "a" := by
  decide

/-- Claim C3 (amended): `addTask` assigns the id
`task_<Date.now()>_<random suffix>`; when that string differs from every
existing id (the code performs no collision check, so this is a
precondition, not something enforced), id uniqueness is preserved.
`updateTask` preserves every record id — including the updated one —
provided the patch itself does not carry an `id` field. -/
theorem claim3_id_invariants (s : Store) (task : AddInput) (nowIso : String)
    (nowMs : Nat) (rand : String) (id : String) (p : TaskPatch) (now2 : String)
    (hfresh : genId nowMs rand ∉ s.tasks.map Task'.id)
    (hnodup : (s.tasks.map Task'.id).Nodup)
    (hp : p.id = none) :
    (addTask s task nowIso nowMs rand).2.1.id = genId nowMs rand
    ∧ ((addTask s task nowIso nowMs rand).1.tasks.map Task'.id).Nodup
    ∧ ((updateTask s id p now2).1.tasks.map Task'.id) = s.tasks.map Task'.id
    ∧ (∀ u, (updateTask s id p now2).2.1 = some u → u.id = id) := by
  refine ⟨rfl, ?_, ?_, ?_⟩
  · exact List.Nodup.cons hfresh hnodup
  · unfold updateTask
    cases h : updateFirst id p now2 s.tasks with
    | none => rfl
    | some x =>
      cases x with
      | mk l u => simpa using (updateFirst_id_map id p now2 hp s.tasks l u h).1
  · intro u hu
    unfold updateTask at hu
    cases h : updateFirst id p now2 s.tasks with
    | none => rw [h] at hu; simp at hu
    | some x =>
      cases x with
      | mk l v =>
        rw [h] at hu
        simp at hu
        subst hu
        exact (updateFirst_id_map id p now2 hp s.tasks l v h).2

/-- Claim C3 witness: the amended theorem applied at a concrete store
with one task, a fresh id source, and an id-free patch. -/
theorem claim3_witness :
    (addTask ⟨[cexTask], demoSettings, []⟩ demoInput "t0" 3 "zz").2.1.id
      = genId 3 "zz"
    ∧ (((addTask ⟨[cexTask], demoSettings, []⟩ demoInput "t0" 3 "zz").1.tasks.map
        Task'.id).Nodup)
    ∧ ((updateTask ⟨[cexTask], demoSettings, []⟩ "a" TaskPatch.empty "t2").1.tasks.map
        Task'.id) = ([cexTask].map Task'.id)
    ∧ (∀ u, (updateTask ⟨[cexTask], demoSettings, []⟩ "a" TaskPatch.empty "t2").2.1
        = some u → u.id = "a") :=
  claim3_id_invariants ⟨[cexTask], demoSettings, []⟩ demoInput "t0" 3 "zz" "a"
    TaskPatch.empty "t2" (by decide) (by decide) rfl

/-! ## Claim C6 — not-found conditions -/

/-- Claim C6: when no task carries the requested id, `updateTask`
returns `null` (here `none`), `deleteTask` returns `false`, `getTask`
returns `null`; none of them mutates the store and neither mutator emits
a change notification (the returned event list is empty).  All three are
total functions, so no exception is possible. -/
theorem claim6_notFound (s : Store) (id : String) (p : TaskPatch)
    (now : String) (h : ∀ t ∈ s.tasks, t.id ≠ id) :
    updateTask s id p now = (s, none, [])
    ∧ deleteTask s id = (s, false, [])
    ∧ getTask s id = none := by
  refine ⟨?_, ?_, ?_⟩
  · unfold updateTask
    rw [updateFirst_eq_none id p now s.tasks h]
  · unfold deleteTask
    rw [removeFirst_eq_none id s.tasks h]
  · unfold getTask
    rw [List.find?_eq_none]
    intro t ht
    simpa using h t ht

/-- Claim C6 witness: the not-found theorem at a concrete store holding
one task with id `"a"`, queried for the absent id `"zzz"`. -/
theorem claim6_witness :
    updateTask ⟨[cexTask], demoSettings, []⟩ "zzz" TaskPatch.empty "t3"
      = (⟨[cexTask], demoSettings, []⟩, none, [])
    ∧ deleteTask ⟨[cexTask], demoSettings, []⟩ "zzz"
      = (⟨[cexTask], demoSettings, []⟩, false, [])
    ∧ getTask ⟨[cexTask], demoSettings, []⟩ "zzz" = none :=
  claim6_notFound ⟨[cexTask], demoSettings, []⟩ "zzz" TaskPatch.empty "t3"
    (by decide)

/-! ## Claim C9 — tag vocabulary removal -/

/-- Claim C9 counterexample: removing the single remaining tag leaves
the vocabulary empty — `removeTag` filters unconditionally and has no
guard against dropping to zero entries, refuting the claim. -/
theorem claim9_counterexample :
    demoStore.tags ≠ [] ∧ (removeTag demoStore "Study").1.tags = [] := by
  decide

/-- Claim C9 (amended): `removeTag` unconditionally removes every
occurrence of the tag (and nothing else, preserving order); the
vocabulary becomes empty exactly when every stored tag equals the
removed one — removal of the last remaining tag IS carried out.  Tasks
and settings are untouched and `tagsUpdated` is notified. -/
theorem claim9_removeTag (s : Store) (tag : String) :
    (removeTag s tag).1.tags = s.tags.filter (fun t => t ≠ tag)
    ∧ ((removeTag s tag).1.tags = [] ↔ ∀ t ∈ s.tags, t = tag)
    ∧ (removeTag s tag).1.tasks = s.tasks
    ∧ (removeTag s tag).1.settings = s.settings
    ∧ (removeTag s tag).2 = ["tagsUpdated"] := by
  refine ⟨rfl, ?_, rfl, rfl, rfl⟩
  simp [removeTag, List.filter_eq_nil_iff]

/-! ## Canonical decimal printing of JavaScript numbers

Every JavaScript double is a dyadic rational, hence has a finite decimal
expansion, and the shortest-round-trip printing JS uses prints exactly
the canonical decimal for the short-decimal values arising in this
application (durations with at most two decimal places).  Rationals
without a finite decimal expansion do not correspond to any JS double;
they take a fallback branch that is dead relative to the source. -/

/-- Multiplicity of `p ≥ 2` in `n ≥ 1` (0 otherwise), fuel-based. -/
def factorMultF (p : Nat) : Nat → Nat → Nat
  | 0, _ => 0
  | f + 1, n => if 2 ≤ p ∧ 1 ≤ n ∧ p ∣ n then factorMultF p f (n / p) + 1 else 0

/-- Multiplicity of a prime `p ≥ 2` in `n ≥ 1` (0 otherwise). -/
def factorMult (p n : Nat) : Nat := factorMultF p n n

/-- Smallest `k` with `d ∣ 10 ^ k`, when one exists. -/
def decExp (d : Nat) : Option Nat :=
  let a := factorMult 2 d
  let b := factorMult 5 d
  if d = 2 ^ a * 5 ^ b then some (max a b) else none

/-- Left-pad a digit string with zeros to the given width. -/
def padZeros (w : Nat) (cs : List Char) : List Char :=
  List.replicate (w - cs.length) '0' ++ cs

/-- Canonical decimal printing of a non-negative rational; with the
minimal exponent the final fractional digit is never zero, matching the
trailing-zero-free JS output. -/
def printNumNN (q : ℚ) : String :=
  match decExp q.den with
  | none => natToStr q.num.toNat ++ "/" ++ natToStr q.den
  | some 0 => natToStr q.num.toNat
  | some (k + 1) =>
    let scaled := q.num.toNat * 10 ^ (k + 1) / q.den
    natToStr (scaled / 10 ^ (k + 1)) ++ "."
      ++ ⟨padZeros (k + 1) (natChars (scaled % 10 ^ (k + 1)))⟩

/-- Model of `String(number)` / `JSON.stringify` number output. -/
def printNum (q : ℚ) : String :=
  if q < 0 then "-" ++ printNumNN (-q) else printNumNN q

/-! ## The field validator (`scripts/validators.js`) -/

/-- A JavaScript value as passed to `validateField`. -/
inductive JSVal
  | undef
  | nullV
  | bool (b : Bool)
  | num (q : ℚ)
  | str (s : String)
deriving DecidableEq, Repr

/-- JS truthiness (`NaN`, not representable in the `ℚ` model, is also
falsy in JS). -/
def JSVal.truthy : JSVal → Bool
  | undef => false
  | nullV => false
  | bool b => b
  | num q => q ≠ 0
  | str s => s ≠ ""

/-- JS `toString()`. -/
def JSVal.toStr : JSVal → String
  | undef => "undefined"
  | nullV => "null"
  | bool b => if b then "true" else "false"
  | num q => printNum q
  | str s => s

/-- `(value || '').toString()` at the top of `validateField`. -/
def jsCoerce (v : JSVal) : String := if v.truthy then v.toStr else ""

/-- ASCII digit test (the `\d` class). -/
def isDigitB (c : Char) : Bool := 48 ≤ c.toNat && c.toNat ≤ 57

/-- The `[1-9]` class. -/
def isDigit19 (c : Char) : Bool := 49 ≤ c.toNat && c.toNat ≤ 57

/-- ASCII letter test (the `[A-Za-z]` class). -/
def isAsciiLetter (c : Char) : Bool :=
  (97 ≤ c.toNat && c.toNat ≤ 122) || (65 ≤ c.toNat && c.toNat ≤ 90)

/-- The `\w` class `[A-Za-z0-9_]`. -/
def isWordChar (c : Char) : Bool :=
  isAsciiLetter c || isDigitB c || c = '_'

/-- JS line terminators (not matched by `.`). -/
def isLineTerm (c : Char) : Bool :=
  c = '\n' ∨ c = '\r' ∨ c = ' ' ∨ c = ' '

/-- `PATTERNS.title = /^\S(?:.*\S)?$/`: a single non-space character, or
a non-space first character, a non-space last character, and no line
terminator in between (`.` does not cross line terminators and `$` only
matches at the very end without the `m` flag). -/
def titlePatL (cs : List Char) : Bool :=
  match cs with
  | [] => false
  | c :: rest =>
    match rest.getLast? with
    | none => !jsIsSpace c
    | some d =>
      !jsIsSpace c && !jsIsSpace d && rest.dropLast.all (fun x => !isLineTerm x)

/-- The optional `(\.\d{1,2})?$` tail of the numeric pattern. -/
def fracPartOK : List Char → Bool
  | [] => true
  | '.' :: ds => (ds.length = 1 || ds.length = 2) && ds.all isDigitB
  | _ => false

/-- `PATTERNS.numeric = /^(0|[1-9]\d*)(\.\d{1,2})?$/`. -/
def numericPatL : List Char → Bool
  | [] => false
  | '0' :: rest => fracPartOK rest
  | c :: rest => isDigit19 c && fracPartOK (rest.dropWhile isDigitB)

/-- The `(0[1-9]|1[0-2])` month group. -/
def monthOK (m1 m2 : Char) : Bool :=
  (m1 = '0' && isDigit19 m2) || (m1 = '1' && (m2 = '0' || m2 = '1' || m2 = '2'))

/-- The `(0[1-9]|[12]\d|3[01])` day group. -/
def dayOK (d1 d2 : Char) : Bool :=
  (d1 = '0' && isDigit19 d2) || ((d1 = '1' || d1 = '2') && isDigitB d2)
    || (d1 = '3' && (d2 = '0' || d2 = '1'))

/-- `PATTERNS.date = /^\d{4}-(0[1-9]|1[0-2])-(0[1-9]|[12]\d|3[01])$/`. -/
def datePatL : List Char → Bool
  | [y1, y2, y3, y4, s1, m1, m2, s2, d1, d2] =>
    isDigitB y1 && isDigitB y2 && isDigitB y3 && isDigitB y4
      && s1 = '-' && s2 = '-' && monthOK m1 m2 && dayOK d1 d2
  | _ => false

/-- `trimmed.split('-').map(Number)` for a string of shape
`yyyy-mm-dd` (guaranteed by the date pattern at the call site). -/
def parseYMD : List Char → Nat × Nat × Nat
  | [y1, y2, y3, y4, _, m1, m2, _, d1, d2] =>
    (((digitVal y1 * 10 + digitVal y2) * 10 + digitVal y3) * 10 + digitVal y4,
      digitVal m1 * 10 + digitVal m2,
      digitVal d1 * 10 + digitVal d2)
  | _ => (0, 0, 0)

/-- Gregorian leap year. -/
def isLeap (y : Nat) : Bool := (y % 4 = 0 && y % 100 ≠ 0) || y % 400 = 0

/-- Days in a month of the Gregorian calendar. -/
def daysInMonth (y m : Nat) : Nat :=
  if m = 2 then (if isLeap y then 29 else 28)
  else if m = 4 ∨ m = 6 ∨ m = 9 ∨ m = 11 then 30 else 31

/-- The calendar normalisation performed by `new Date(y, m-1, d)` on a
pattern-valid triple (1 ≤ m ≤ 12, 1 ≤ d ≤ 31): the constructor maps
years 0–99 to 1900+year, and a day beyond the month's length rolls into
the next month (December has 31 days, so the year can never roll). -/
def jsDateNorm (y m d : Nat) : Nat × Nat × Nat :=
  let yEff := if y ≤ 99 then 1900 + y else y
  if d ≤ daysInMonth yEff m then (yEff, m, d)
  else (yEff, m + 1, d - daysInMonth yEff m)

/-- The round-trip check
`getFullYear() === y && getMonth() === m-1 && getDate() === d` in the
`date` branch of `validateField`. -/
def jsDateRoundTrip (y m d : Nat) : Bool :=
  let n := jsDateNorm y m d
  n.1 == y && n.2.1 == m && n.2.2 == d

/-- Case-insensitive character comparison (the `i` flag). -/
def ciEq (a b : Char) : Bool := a.toLower = b.toLower

/-- Case-insensitive list-prefix test. -/
def ciPrefix : List Char → List Char → Bool
  | [], _ => true
  | _ :: _, [] => false
  | a :: as, b :: bs => ciEq a b && ciPrefix as bs

/-- The `\1\b` tail of the duplicate-word pattern: the captured word
must reappear (case-insensitively) and be followed by a word boundary. -/
def dupTail (w rest : List Char) : Bool :=
  ciPrefix w rest &&
    (match (rest.drop w.length).head? with
     | none => true
     | some c => !isWordChar c)

/-- Backtracking of the greedy `(\w+)` group: candidate capture lengths
from longest to shortest.  `\s+` never needs to backtrack because `\1`
starts with a word character, which is never whitespace, so the maximal
whitespace run is the only viable one. -/
def dupAtLen : Nat → List Char → Option (List Char)
  | 0, _ => none
  | n + 1, cs =>
    let w := cs.take (n + 1)
    let rest := cs.drop (n + 1)
    let sp := rest.takeWhile jsIsSpace
    if sp.length ≥ 1 && dupTail w (rest.drop sp.length) then some w
    else dupAtLen n cs

/-- Match attempt of `(\w+)\s+\1\b` at one position (which the caller
guarantees to be a word start). -/
def dupAt (cs : List Char) : Option (List Char) :=
  dupAtLen (cs.takeWhile isWordChar).length cs

/-- Leftmost match of `/\b(\w+)\s+\1\b/i`: scan every position; the
leading `\b` restricts starts to word starts. -/
def dupScan : List Char → Bool → Option (List Char)
  | [], _ => none
  | c :: rest, prevWord =>
    if !prevWord && isWordChar c then
      match dupAt (c :: rest) with
      | some w => some w
      | none => dupScan rest (isWordChar c)
    else dupScan rest (isWordChar c)

/-- `PATTERNS.duplicateWords.test` + `match[1]`: the captured duplicated
word of the first match, if any. -/
def dupWordFind (s : String) : Option (List Char) := dupScan s.data false

/-- `PATTERNS.tag = /^[A-Za-z]+(?:[ -][A-Za-z]+)*$/`, as the equivalent
two-state automaton: a letter block, then optionally one space-or-hyphen
separator and another letter block, repeated; state is (alive, inside a
letter block). -/
def tagStep : Bool × Bool → Char → Bool × Bool
  | (false, _), _ => (false, false)
  | (true, false), c => if isAsciiLetter c then (true, true) else (false, false)
  | (true, true), c =>
    if isAsciiLetter c then (true, true)
    else if c = ' ' ∨ c = '-' then (true, false)
    else (false, false)

def tagPatL (cs : List Char) : Bool :=
  let fin := cs.foldl tagStep (true, false)
  fin.1 && fin.2

/-! Validation messages (`MESSAGES` in `validators.js`). -/

def titleRequiredMsg : String := "Title is required."
def titleInvalidMsg : String := "Title must not start or end with spaces."
def durationRequiredMsg : String := "Duration is required."
def durationInvalidMsg : String := "Enter a valid number (e.g. 90 or 12.5)."
def durationNegMsg : String := "Duration must be non-negative."
def overCapWarnMsg : String := "That\x27s over 24 hours — are you sure?"
def dateRequiredMsg : String := "Due date is required."
def dateInvalidMsg : String := "Enter a valid date in YYYY-MM-DD format."
def dateNotRealMsg : String := "This date does not exist (e.g. Feb 30)."
def tagRequiredMsg : String := "Tag is required."
def tagInvalidMsg : String := "Tag must contain only letters, spaces, or hyphens."

/-- The result record `{ valid, error, warning }`. -/
structure VResult where
  valid : Bool
  error : Option String
  warning : Option String
deriving DecidableEq, Repr

/-- `validateField(field, value)` from `validators.js`.  The `switch`
is a chain of strict string comparisons; the function is total — the JS
original never throws, since every branch only performs regex tests,
`split`, `parseFloat` and `Date` construction on the coerced string. -/
def validateField (field : String) (value : JSVal) : VResult :=
  let trimmed := jsCoerce value
  if field = "title" then
    if trimmed = "" then ⟨false, some titleRequiredMsg, none⟩
    else if !titlePatL trimmed.data then ⟨false, some titleInvalidMsg, none⟩
    else ⟨true, none, none⟩
  else if field = "duration" then
    if trimmed = "" then ⟨false, some durationRequiredMsg, none⟩
    else if !numericPatL trimmed.data then ⟨false, some durationInvalidMsg, none⟩
    else
      let num := jsParseFloat trimmed
      if num < 0 then ⟨false, some durationNegMsg, none⟩
      else if num > 1440 then ⟨true, none, some overCapWarnMsg⟩
      else ⟨true, none, none⟩
  else if field = "date" then
    if trimmed = "" then ⟨false, some dateRequiredMsg, none⟩
    else if !datePatL trimmed.data then ⟨false, some dateInvalidMsg, none⟩
    else
      let ymd := parseYMD trimmed.data
      if !jsDateRoundTrip ymd.1 ymd.2.1 ymd.2.2 then
        ⟨false, some dateNotRealMsg, none⟩
      else ⟨true, none, none⟩
  else if field = "tag" then
    if trimmed = "" then ⟨false, some tagRequiredMsg, none⟩
    else if !tagPatL trimmed.data then ⟨false, some tagInvalidMsg, none⟩
    else ⟨true, none, none⟩
  else if field = "notes" then
    let warning :=
      if trimmed ≠ "" then
        match dupWordFind trimmed with
        | some w =>
          some ("Duplicate word detected: \"" ++ (⟨w⟩ : String) ++ " "
            ++ (⟨w⟩ : String) ++ "\". Did you mean to repeat it?")
        | none => none
      else none
    ⟨true, none, warning⟩
  else ⟨true, none, none⟩

/-! ## Claim C4 — real-date validation -/

theorem jsCoerce_str (s : String) : jsCoerce (JSVal.str s) = s := by
  by_cases h : s = "" <;> simp [jsCoerce, JSVal.truthy, JSVal.toStr, h]

theorem validateField_date (s : String) :
    validateField "date" (JSVal.str s)
      = (if s = "" then ⟨false, some dateRequiredMsg, none⟩
         else if !datePatL s.data then ⟨false, some dateInvalidMsg, none⟩
         else if !jsDateRoundTrip (parseYMD s.data).1 (parseYMD s.data).2.1
             (parseYMD s.data).2.2 then ⟨false, some dateNotRealMsg, none⟩
         else ⟨true, none, none⟩) := by
  simp [validateField, jsCoerce_str s]

theorem monthOK_bounds {m1 m2 : Char} (h : monthOK m1 m2 = true) :
    1 ≤ digitVal m1 * 10 + digitVal m2 ∧ digitVal m1 * 10 + digitVal m2 ≤ 12 := by
  unfold monthOK isDigit19 at h
  simp only [Bool.or_eq_true, Bool.and_eq_true, decide_eq_true_eq] at h
  rcases h with ⟨h1, h2, h3⟩ | ⟨h1, h2⟩
  · subst h1
    have h0 : digitVal '0' = 0 := by decide
    rw [h0]
    unfold digitVal at *
    omega
  · subst h1
    rcases h2 with (h2 | h2) | h2 <;> subst h2 <;> decide

theorem dayOK_bounds {d1 d2 : Char} (h : dayOK d1 d2 = true) :
    1 ≤ digitVal d1 * 10 + digitVal d2 ∧ digitVal d1 * 10 + digitVal d2 ≤ 31 := by
  unfold dayOK isDigit19 isDigitB at h
  simp only [Bool.or_eq_true, Bool.and_eq_true, decide_eq_true_eq] at h
  rcases h with (⟨h1, h2, h3⟩ | ⟨h1, h2, h3⟩) | ⟨h1, h2⟩
  · subst h1
    have h0 : digitVal '0' = 0 := by decide
    rw [h0]
    unfold digitVal at *
    omega
  · have : digitVal d1 = 1 ∨ digitVal d1 = 2 := by
      rcases h1 with h1 | h1 <;> subst h1 <;> [left; right] <;> decide
    unfold digitVal at *
    omega
  · subst h1
    rcases h2 with h2 | h2 <;> subst h2 <;> decide

theorem datePat_bounds (cs : List Char) (h : datePatL cs = true) :
    1 ≤ (parseYMD cs).2.1 ∧ (parseYMD cs).2.1 ≤ 12
    ∧ 1 ≤ (parseYMD cs).2.2 ∧ (parseYMD cs).2.2 ≤ 31 := by
  unfold datePatL at h
  split at h
  next y1 y2 y3 y4 s1 m1 m2 s2 d1 d2 =>
    simp only [Bool.and_eq_true, decide_eq_true_eq] at h
    obtain ⟨⟨⟨⟨⟨⟨⟨hy1, hy2⟩, hy3⟩, hy4⟩, hs1⟩, hs2⟩, hm⟩, hd⟩ := h
    have hmb := monthOK_bounds hm
    have hdb := dayOK_bounds hd
    simp only [parseYMD]
    exact ⟨hmb.1, hmb.2, hdb.1, hdb.2⟩
  next => simp at h

theorem dateRT_iff (y m d : Nat) :
    jsDateRoundTrip y m d = true ↔ (100 ≤ y ∧ d ≤ daysInMonth y m) := by
  unfold jsDateRoundTrip jsDateNorm
  by_cases hy : y ≤ 99
  · simp only [if_pos hy]
    by_cases hov : d ≤ daysInMonth (1900 + y) m
    · simp only [if_pos hov, Bool.and_eq_true, beq_iff_eq]
      omega
    · simp only [if_neg hov, Bool.and_eq_true, beq_iff_eq]
      omega
  · simp only [if_neg hy]
    by_cases hov : d ≤ daysInMonth y m
    · simp only [if_pos hov, Bool.and_eq_true, beq_iff_eq]
      refine ⟨fun _ => ⟨by omega, hov⟩, fun _ => by simp⟩
    · simp only [if_neg hov, Bool.and_eq_true, beq_iff_eq]
      omega

/-- The property the SPEC asks of a date value (stated from the spec
wording, for comparison against the code): a real proleptic-Gregorian
calendar date. -/
def specRealDate (y m d : Nat) : Prop :=
  1 ≤ m ∧ m ≤ 12 ∧ 1 ≤ d ∧ d ≤ daysInMonth y m

instance (y m d : Nat) : Decidable (specRealDate y m d) := by
  unfold specRealDate; infer_instance

/-- Claim C4 counterexample: `"0050-01-01"` matches the syntactic date
pattern and denotes a real calendar date (1 January of year 50), yet
`validateField('date', ...)` rejects it — the JS `Date(year, ...)`
constructor maps years 0–99 to 1900+year, so the round-trip check fails
for every pattern-valid date whose year is below 100, refuting the
claimed exact characterisation. -/
theorem claim4_counterexample :
    datePatL ("0050-01-01" : String).data = true
    ∧ specRealDate 50 1 1
    ∧ (validateField "date" (JSVal.str "0050-01-01")).valid = false := by
  decide

/-- Claim C4 (amended): `validateField('date', s)` is valid exactly when
`s` matches the 4-digit-year, month 01–12, day 01–31 pattern, denotes a
real calendar date, AND the year is at least 100 (the JS two-digit-year
mapping makes the code reject all years 0000–0099); in particular
`'2025-02-30'` is invalid even though it matches the syntactic pattern,
and `'2025-09-29'` is valid. -/
theorem claim4_dateValidation (s : String) :
    ((validateField "date" (JSVal.str s)).valid = true
      ↔ (datePatL s.data = true
          ∧ specRealDate (parseYMD s.data).1 (parseYMD s.data).2.1
              (parseYMD s.data).2.2
          ∧ 100 ≤ (parseYMD s.data).1))
    ∧ (validateField "date" (JSVal.str "2025-02-30")).valid = false
    ∧ (validateField "date" (JSVal.str "2025-09-29")).valid = true := by
  refine ⟨?_, by decide, by decide⟩
  rw [validateField_date]
  by_cases h0 : s = ""
  · subst h0
    simp [datePatL]
  · rw [if_neg h0]
    cases hp : datePatL s.data with
    | false =>
      simp [hp]
    | true =>
      obtain ⟨hm1, hm2, hd1, hd2⟩ := datePat_bounds s.data hp
      simp only [hp, Bool.not_true, Bool.false_eq_true, if_false]
      unfold specRealDate
      by_cases hrt : jsDateRoundTrip (parseYMD s.data).1 (parseYMD s.data).2.1
          (parseYMD s.data).2.2 = true
      · rw [hrt]
        have := (dateRT_iff _ _ _).mp hrt
        simp only [Bool.not_true, if_false]
        constructor
        · intro _
          exact ⟨trivial, ⟨hm1, hm2, hd1, this.2⟩, this.1⟩
        · intro _
          trivial
      · have hrt' : jsDateRoundTrip (parseYMD s.data).1 (parseYMD s.data).2.1
            (parseYMD s.data).2.2 = false := by
          cases hx : jsDateRoundTrip (parseYMD s.data).1 (parseYMD s.data).2.1
              (parseYMD s.data).2.2
          · rfl
          · exact absurd hx hrt
        rw [hrt']
        simp only [Bool.not_false, if_true]
        constructor
        · intro hfalse
          exact absurd hfalse (by simp)
        · intro ⟨_, hreal, hy⟩
          exact absurd ((dateRT_iff _ _ _).mpr ⟨hy, hreal.2.2.2⟩) hrt

/-! ## Claim C10 — validateField totality and coercion -/

/-- Claim C10: `validateField` returns a `{ valid, error, warning }`
record for every field name and every value — it is a total function in
this embedding because the JS original cannot throw; `null` and
`undefined` coerce to the empty string, so the four required fields
report their required error and `notes` stays valid; any field name
outside the five known ones yields valid with no error and no
warning. -/
theorem claim10_total (field : String) (v : JSVal) :
    (field ∉ (["title", "duration", "date", "tag", "notes"] : List String) →
      validateField field v = ⟨true, none, none⟩)
    ∧ validateField field JSVal.nullV = validateField field (JSVal.str "")
    ∧ validateField field JSVal.undef = validateField field (JSVal.str "")
    ∧ validateField "title" JSVal.nullV = ⟨false, some titleRequiredMsg, none⟩
    ∧ validateField "duration" JSVal.undef
        = ⟨false, some durationRequiredMsg, none⟩
    ∧ validateField "date" JSVal.nullV = ⟨false, some dateRequiredMsg, none⟩
    ∧ validateField "tag" JSVal.nullV = ⟨false, some tagRequiredMsg, none⟩
    ∧ validateField "notes" JSVal.undef = ⟨true, none, none⟩ := by
  refine ⟨?_, ?_, ?_, by decide, by decide, by decide, by decide, by decide⟩
  · intro h
    simp only [List.mem_cons, List.not_mem_nil, or_false, not_or] at h
    obtain ⟨h1, h2, h3, h4, h5⟩ := h
    unfold validateField
    rw [if_neg h1, if_neg h2, if_neg h3, if_neg h4, if_neg h5]
  · have h : jsCoerce JSVal.nullV = jsCoerce (JSVal.str "") := by decide
    unfold validateField
    rw [h]
  · have h : jsCoerce JSVal.undef = jsCoerce (JSVal.str "") := by decide
    unfold validateField
    rw [h]

/-- Claim C10 witness: the totality theorem applied at the unknown field
name `"weird"` and a non-string value, discharging the membership
hypothesis. -/
theorem claim10_witness :
    validateField "weird" (JSVal.num 5) = ⟨true, none, none⟩
    ∧ validateField "weird" JSVal.nullV = validateField "weird" (JSVal.str "") :=
  ⟨(claim10_total "weird" (JSVal.num 5)).1 (by decide),
   (claim10_total "weird" (JSVal.num 5)).2.1⟩

/-! ## The regex engine (`scripts/search.js`)

`new RegExp(input, flags)` is modelled by a recursive-descent parser for
a subset of the JS regex grammar (literals, `.`, escapes, character
classes, groups — plain, non-capturing, lookahead-delimited —
alternation and the `* + ?` quantifiers; `{m,n}` quantifiers, anchors
with real anchor semantics and back-references are outside the subset:
`^`/`$` parse as zero-width no-ops and `{` as a literal, as in JS
web-compat mode when not forming a quantifier).  A malformed pattern
yields `Except.error`, modelling the `SyntaxError` the constructor
throws. -/

/-- One member of a character class. -/
inductive ClsItem
  | single (c : Char)
  | range (lo hi : Char)
  | digitCls
  | wordCls
  | spaceCls
deriving DecidableEq, Repr

/-- The modelled regex AST. -/
inductive RE
  | eps
  | char (c : Char)
  | anyC
  | cls (neg : Bool) (items : List ClsItem)
  | concat (r1 r2 : RE)
  | alt (r1 r2 : RE)
  | star (r : RE)
  | plus (r : RE)
  | opt (r : RE)
  | group (r : RE)
deriving DecidableEq, Repr

deriving instance DecidableEq for Except

/-- Atom denoted by an escape sequence outside a class (`\d`, `\w`,
`\s` and their negations; control escapes; anything else is the escaped
literal). -/
def escAtomRE (c : Char) : RE :=
  if c = 'd' then .cls false [.digitCls]
  else if c = 'D' then .cls true [.digitCls]
  else if c = 'w' then .cls false [.wordCls]
  else if c = 'W' then .cls true [.wordCls]
  else if c = 's' then .cls false [.spaceCls]
  else if c = 'S' then .cls true [.spaceCls]
  else if c = 'n' then .char '\n'
  else if c = 't' then .char '\t'
  else if c = 'r' then .char '\r'
  else .char c

/-- Class member denoted by an escape sequence inside a class. -/
def clsEsc (c : Char) : ClsItem :=
  if c = 'd' then .digitCls
  else if c = 'w' then .wordCls
  else if c = 's' then .spaceCls
  else if c = 'n' then .single '\n'
  else if c = 't' then .single '\t'
  else if c = 'r' then .single '\r'
  else .single c

/-- Items of a character class up to the closing `]`. -/
def pClsItems : List Char → Except String (List ClsItem × List Char)
  | [] => .error "Unterminated character class"
  | ']' :: rest => .ok ([], rest)
  | '\\' :: [] => .error "Pattern may not end with a trailing backslash"
  | '\\' :: c :: rest =>
    (pClsItems rest).map (fun x => (clsEsc c :: x.1, x.2))
  | a :: '-' :: ']' :: rest => .ok ([ClsItem.single a, ClsItem.single '-'], rest)
  | a :: '-' :: b :: rest =>
    if a.toNat ≤ b.toNat then
      (pClsItems rest).map (fun x => (ClsItem.range a b :: x.1, x.2))
    else .error "Range out of order in character class"
  | a :: rest => (pClsItems rest).map (fun x => (ClsItem.single a :: x.1, x.2))

/-- A whole character class after the opening `[`. -/
def pCls : List Char → Except String (RE × List Char)
  | '^' :: rest => (pClsItems rest).map (fun x => (RE.cls true x.1, x.2))
  | cs => (pClsItems cs).map (fun x => (RE.cls false x.1, x.2))

mutual

/-- Alternation level: sequences separated by `|`. -/
def pAlt (f : Nat) (cs : List Char) : Except String (RE × List Char) :=
  match f with
  | 0 => .error "fuel exhausted"
  | f + 1 =>
    match pSeq f cs with
    | .error e => .error e
    | .ok (r, rest) =>
      match rest with
      | '|' :: rest2 =>
        match pAlt f rest2 with
        | .error e => .error e
        | .ok (r2, rest3) => .ok (.alt r r2, rest3)
      | _ => .ok (r, rest)

/-- Sequence level: concatenation of quantified atoms. -/
def pSeq (f : Nat) (cs : List Char) : Except String (RE × List Char) :=
  match f with
  | 0 => .error "fuel exhausted"
  | f + 1 =>
    match pAtomQ f cs with
    | .error e => .error e
    | .ok (none, rest) => .ok (.eps, rest)
    | .ok (some a, rest) =>
      match pSeq f rest with
      | .error e => .error e
      | .ok (r, rest2) => .ok (.concat a r, rest2)

/-- An atom with an optional `*`, `+` or `?` quantifier. -/
def pAtomQ (f : Nat) (cs : List Char) : Except String (Option RE × List Char) :=
  match f with
  | 0 => .error "fuel exhausted"
  | f + 1 =>
    match pAtom f cs with
    | .error e => .error e
    | .ok (none, rest) => .ok (none, rest)
    | .ok (some a, rest) =>
      match rest with
      | [] => .ok (some a, rest)
      | q :: rest2 =>
        if q = '*' then .ok (some (.star a), rest2)
        else if q = '+' then .ok (some (.plus a), rest2)
        else if q = '?' then .ok (some (.opt a), rest2)
        else .ok (some a, rest)

/-- One atom; returns `none` without consuming at `)`/`|`/end. -/
def pAtom (f : Nat) (cs : List Char) : Except String (Option RE × List Char) :=
  match f with
  | 0 => .error "fuel exhausted"
  | f + 1 =>
    match cs with
    | [] => .ok (none, [])
    | c :: rest =>
      if c = ')' ∨ c = '|' then .ok (none, c :: rest)
      else if c = '(' then
        let body := if rest.take 2 = ['?', ':'] ∨ rest.take 2 = ['?', '=']
            ∨ rest.take 2 = ['?', '!'] then rest.drop 2 else rest
        match pAlt f body with
        | .error e => .error e
        | .ok (r, rest2) =>
          match rest2 with
          | ')' :: rest3 => .ok (some (.group r), rest3)
          | _ => .error "Unterminated group"
      else if c = '*' ∨ c = '+' ∨ c = '?' then .error "Nothing to repeat"
      else if c = '\\' then
        match rest with
        | [] => .error "Pattern may not end with a trailing backslash"
        | e :: rest2 => .ok (some (escAtomRE e), rest2)
      else if c = '[' then
        match pCls rest with
        | .error e => .error e
        | .ok (r, rest2) => .ok (some r, rest2)
      else if c = '^' ∨ c = '$' then .ok (some .eps, rest)
      else if c = '.' then .ok (some .anyC, rest)
      else .ok (some (.char c), rest)

end

/-- Fuel bound for the parser: descending one grammar level
(`pAlt` → `pSeq` → `pAtomQ` → `pAtom`) consumes four fuel units and
recursion into a group consumes at least one character, so four times
the length plus a constant always suffices. -/
def parseFuel (cs : List Char) : Nat := 4 * cs.length + 8

/-- `new RegExp(input, ...)`: parse the whole pattern.  `pAlt` only
stops at the end or at an unmatched `)`. -/
def parseRE (cs : List Char) : Except String RE :=
  match pAlt (parseFuel cs) cs with
  | .error e => .error e
  | .ok (r, []) => .ok r
  | .ok (_, _ :: _) => .error "Unmatched closing parenthesis"

/-! ### Matching -/

/-- Case-insensitive character equality (the `i` flag). -/
def charEqCI (ci : Bool) (p c : Char) : Bool :=
  if ci then ciEq p c else p = c

/-- Membership of one class item. -/
def clsItemMatch (ci : Bool) (c : Char) : ClsItem → Bool
  | .single a => charEqCI ci a c
  | .range lo hi =>
    let inR := fun x : Char => lo.toNat ≤ x.toNat && x.toNat ≤ hi.toNat
    inR c || (ci && (inR c.toLower || inR c.toUpper))
  | .digitCls => isDigitB c
  | .wordCls => isWordChar c
  | .spaceCls => jsIsSpace c

/-- Character-class membership. -/
def clsMatch (ci neg : Bool) (items : List ClsItem) (c : Char) : Bool :=
  let m := items.any (clsItemMatch ci c)
  if neg then !m else m

/-- Backtracking matcher in continuation-passing style, mirroring the
JS engine's preference order: alternation tries the left branch first,
quantifiers are greedy, and a zero-width `star` body does not repeat
(the engine's empty-loop check).  `f` is fuel; each `star` unrolling
consumes at least one character, so the fuel supplied by `matchAt`
never runs out. -/
def mrun (ci : Bool) :
    Nat → RE → List Char → (List Char → Option (List Char)) → Option (List Char)
  | 0, _, _, _ => none
  | f + 1, re, s, k =>
    match re with
    | .eps => k s
    | .char c =>
      match s with
      | [] => none
      | x :: rest => if charEqCI ci c x then k rest else none
    | .anyC =>
      match s with
      | [] => none
      | x :: rest => if isLineTerm x then none else k rest
    | .cls neg items =>
      match s with
      | [] => none
      | x :: rest => if clsMatch ci neg items x then k rest else none
    | .concat r1 r2 => mrun ci f r1 s (fun s2 => mrun ci f r2 s2 k)
    | .alt r1 r2 =>
      match mrun ci f r1 s k with
      | some res => some res
      | none => mrun ci f r2 s k
    | .star r =>
      match mrun ci f r s (fun s2 =>
          if s2.length = s.length then none else mrun ci f (.star r) s2 k) with
      | some res => some res
      | none => k s
    | .plus r => mrun ci f r s (fun s2 => mrun ci f (.star r) s2 k)
    | .opt r =>
      match mrun ci f r s k with
      | some res => some res
      | none => k s
    | .group r => mrun ci f r s k

/-- Structural size of a regex, for the fuel bound. -/
def sizeRE : RE → Nat
  | .eps | .char _ | .anyC | .cls _ _ => 1
  | .concat r1 r2 | .alt r1 r2 => sizeRE r1 + sizeRE r2 + 1
  | .star r | .plus r | .opt r | .group r => sizeRE r + 1

/-- Generous fuel for `mrun`. -/
def matchFuel (re : RE) (s : List Char) : Nat :=
  (sizeRE re + 2) * (s.length + 2) * 2 + 8

/-- Length of the (preferred) match of `re` at the start of `s`. -/
def matchAt (ci : Bool) (re : RE) (s : List Char) : Option Nat :=
  (mrun ci (matchFuel re s) re s (fun rem => some rem)).map
    (fun rem => s.length - rem.length)

/-- `regex.test(str)`: search for a match at every position.  The
`lastIndex` resets around each test in `filterTasks` make the JS test
stateless per record, which this pure function models. -/
def searchFrom (ci : Bool) (re : RE) : List Char → Bool
  | [] => (matchAt ci re []).isSome
  | c :: rest => (matchAt ci re (c :: rest)).isSome || searchFrom ci re rest

def reTest (ci : Bool) (re : RE) (s : String) : Bool := searchFrom ci re s.data

/-! ### search.js proper -/

/-- A compiled `RegExp`: the parsed pattern plus its flags. -/
structure JSRegex where
  re : RE
  flags : String
deriving DecidableEq, Repr

/-- Whether the `i` flag is set. -/
def JSRegex.ci (r : JSRegex) : Bool := r.flags.data.contains 'i'

/-- `escapeHTML` from `search.js`: one-pass replacement of the five
dangerous characters by their HTML entities. -/
def escChar (c : Char) : List Char :=
  if c = '&' then "&amp;".data
  else if c = '<' then "&lt;".data
  else if c = '>' then "&gt;".data
  else if c = '"' then "&quot;".data
  else if c = '\'' then "&#039;".data
  else [c]

def escapeHTML (s : String) : String := ⟨(s.data.map escChar).flatten⟩

def markOpen : List Char := "<mark>".data

def markClose : List Char := "</mark>".data

/-- `escaped.replace(globalRegex, match => ...)` with the `<mark>`
wrapper: leftmost matches, non-overlapping, and after a zero-length
match the scan advances by one position (the engine's `lastIndex`
rule; a trailing zero-length match at the very end is also replaced,
as in JS). -/
def scanAllF (m : List Char → Option Nat) : Nat → List Char → List Char
  | 0, _ => []
  | _ + 1, [] =>
    match m [] with
    | some _ => markOpen ++ markClose
    | none => []
  | f + 1, c :: rest =>
    match m (c :: rest) with
    | some (n + 1) =>
      markOpen ++ (c :: rest).take (n + 1) ++ markClose
        ++ scanAllF m f ((c :: rest).drop (n + 1))
    | some 0 => markOpen ++ markClose ++ c :: scanAllF m f rest
    | none => c :: scanAllF m f rest

/-- The replace-all scan; every step consumes at least one character,
so `length + 1` fuel always suffices and the fuel-out branch is dead. -/
def scanAll (m : List Char → Option Nat) (cs : List Char) : List Char :=
  scanAllF m (cs.length + 1) cs

/-- `highlight(text, regex)` from `search.js`: escape the raw text
first, then wrap every non-overlapping match in `<mark>`.  The source
rebuilds the matcher with the `g` flag forced; the replace-all
behaviour of `scanAll` models exactly that. -/
def highlight (text : String) (regex : Option JSRegex) : String :=
  match regex with
  | none => escapeHTML text
  | some r =>
    if text = "" then escapeHTML text
    else ⟨scanAll (fun cs => matchAt r.ci r.re cs) (escapeHTML text).data⟩

/-- `compileRegex(input, flags)` from `search.js`: empty or blank input
compiles to no regex and no error; a malformed pattern is caught and
reported as `Invalid regex: ...`; anything else compiles. -/
def compileRegex (input : String) (flags : String) :
    Option JSRegex × Option String :=
  if jsTrim input = "" then (none, none)
  else
    match parseRE input.data with
    | .ok re => (some ⟨re, flags⟩, none)
    | .error e => (none, some ("Invalid regex: " ++ e))

/-- `c = lower ∨ c = upper`: a letter under the `i` flag. -/
def ciIs (c lower upper : Char) : Bool := c = lower || c = upper

/-- The characters allowed after `@tag:` by `PATTERNS.tagFilter`. -/
def tagRestChar (c : Char) : Bool := isWordChar c || c = ' ' || c = '-'

/-- `input.match(PATTERNS.tagFilter)` for
`/^@tag:(\w[\w -]*)$/i`: the case-insensitive `@tag:` prefix, then a
word character and word/space/hyphen characters to the end; returns the
captured group. -/
def tagFilterCapture (cs : List Char) : Option (List Char) :=
  match cs with
  | c1 :: c2 :: c3 :: c4 :: c5 :: rest =>
    if c1 = '@' && ciIs c2 't' 'T' && ciIs c3 'a' 'A' && ciIs c4 'g' 'G'
        && c5 = ':' then
      match rest with
      | [] => none
      | w :: ws =>
        if isWordChar w && ws.all tagRestChar then some (w :: ws) else none
    else none
  | _ => none

/-- Lower-case a character list (model of `toLowerCase` for the ASCII
range exercised here). -/
def lowerL (cs : List Char) : List Char := cs.map Char.toLower

/-- `needle` occurs as a contiguous subsequence of the second list. -/
def seqPrefix : List Char → List Char → Bool
  | [], _ => true
  | _ :: _, [] => false
  | a :: as, b :: bs => a = b && seqPrefix as bs

def containsSeq (needle : List Char) : List Char → Bool
  | [] => needle.isEmpty
  | c :: rest => seqPrefix needle (c :: rest) || containsSeq needle rest

/-- The searchable haystack
`[title, tag, notes || '', dueDate, String(duration)].join(' ')`. -/
def searchable (t : Task') : String :=
  t.title ++ " " ++ t.tag ++ " " ++ t.notes ++ " " ++ t.dueDate ++ " "
    ++ printNum t.duration

structure FilterResult where
  filtered : List Task'
  regex : Option JSRegex
  error : Option String
deriving DecidableEq, Repr

/-- `filterTasks(tasks, searchInput, caseSensitive)` from `search.js`. -/
def filterTasks (tasks : List Task') (searchInput : String)
    (caseSensitive : Bool) : FilterResult :=
  if jsTrim searchInput = "" then ⟨tasks, none, none⟩
  else
    let input := jsTrim searchInput
    match tagFilterCapture input.data with
    | some cap =>
      let tagSearch := lowerL cap
      ⟨tasks.filter (fun t => containsSeq tagSearch (lowerL t.tag.data)),
        none, none⟩
    | none =>
      let flags := if caseSensitive then "g" else "gi"
      match compileRegex input flags with
      | (_, some err) => ⟨tasks, none, some err⟩
      | (none, none) => ⟨tasks, none, none⟩
      | (some r, none) =>
        ⟨tasks.filter (fun t => reTest r.ci r.re (searchable t)), some r, none⟩

/-! ## Claim C1 — fail-open on malformed patterns -/

/-- Characters that can appear in a string accepted by the tag-filter
pattern; all of them are regex literals. -/
def tagSafeChar (c : Char) : Bool :=
  isWordChar c || c = ' ' || c = '-' || c = '@' || c = ':'

theorem tagSafe_not_special {c : Char} (h : tagSafeChar c = true) :
    ¬(c = ')' ∨ c = '|') ∧ c ≠ '(' ∧ ¬(c = '*' ∨ c = '+' ∨ c = '?')
    ∧ c ≠ '\\' ∧ c ≠ '[' ∧ ¬(c = '^' ∨ c = '$') ∧ c ≠ '.' := by
  refine ⟨?_, ?_, ?_, ?_, ?_, ?_, ?_⟩
  · rintro (rfl | rfl) <;> exact absurd h (by decide)
  · rintro rfl; exact absurd h (by decide)
  · rintro (rfl | rfl | rfl) <;> exact absurd h (by decide)
  · rintro rfl; exact absurd h (by decide)
  · rintro rfl; exact absurd h (by decide)
  · rintro (rfl | rfl) <;> exact absurd h (by decide)
  · rintro rfl; exact absurd h (by decide)

theorem pAtom_safe {c : Char} (h : tagSafeChar c = true) (rest : List Char)
    (f : Nat) : pAtom (f + 1) (c :: rest) = .ok (some (RE.char c), rest) := by
  obtain ⟨h1, h2, h3, h4, h5, h6, h7⟩ := tagSafe_not_special h
  simp only [pAtom]
  rw [if_neg h1, if_neg h2, if_neg h3, if_neg h4, if_neg h5, if_neg h6,
    if_neg h7]

theorem pAtomQ_safe {c : Char} (h : tagSafeChar c = true) (rest : List Char)
    (hrest : ∀ x ∈ rest, tagSafeChar x = true) (f : Nat) :
    pAtomQ (f + 2) (c :: rest) = .ok (some (RE.char c), rest) := by
  show (match pAtom (f + 1) (c :: rest) with
        | Except.error e => (Except.error e : Except String (Option RE × List Char))
        | Except.ok (none, rest1) => Except.ok (none, rest1)
        | Except.ok (some a, rest1) =>
          match rest1 with
          | [] => Except.ok (some a, rest1)
          | q :: rest2 =>
            if q = '*' then Except.ok (some (RE.star a), rest2)
            else if q = '+' then Except.ok (some (RE.plus a), rest2)
            else if q = '?' then Except.ok (some (RE.opt a), rest2)
            else Except.ok (some a, rest1))
      = Except.ok (some (RE.char c), rest)
  rw [pAtom_safe h rest f]
  cases rest with
  | nil => rfl
  | cons q rest2 =>
    have hq := (tagSafe_not_special (hrest q (by simp))).2.2.1
    have hq1 : q ≠ '*' := fun hh => hq (Or.inl hh)
    have hq2 : q ≠ '+' := fun hh => hq (Or.inr (Or.inl hh))
    have hq3 : q ≠ '?' := fun hh => hq (Or.inr (Or.inr hh))
    show (if q = '*' then Except.ok (some (RE.star (RE.char c)), rest2)
          else if q = '+' then Except.ok (some (RE.plus (RE.char c)), rest2)
          else if q = '?' then Except.ok (some (RE.opt (RE.char c)), rest2)
          else Except.ok (some (RE.char c), q :: rest2))
        = Except.ok (some (RE.char c), q :: rest2)
    rw [if_neg hq1, if_neg hq2, if_neg hq3]

theorem pSeq_safe : ∀ (cs : List Char) (f : Nat),
    (∀ c ∈ cs, tagSafeChar c = true) → cs.length + 3 ≤ f →
    ∃ r, pSeq f cs = .ok (r, ([] : List Char)) := by
  intro cs
  induction cs with
  | nil =>
    intro f h hf
    obtain ⟨f3, rfl⟩ : ∃ f3, f = f3 + 3 := ⟨f - 3, by omega⟩
    exact ⟨.eps, rfl⟩
  | cons c rest ih =>
    intro f h hf
    obtain ⟨f3, rfl⟩ : ∃ f3, f = f3 + 3 := ⟨f - 3, by omega⟩
    have hc := h c (by simp)
    have hrest : ∀ x ∈ rest, tagSafeChar x = true :=
      fun x hx => h x (by simp [hx])
    obtain ⟨r, hr⟩ := ih (f3 + 2)
      hrest (by simp only [List.length_cons] at hf; omega)
    refine ⟨.concat (.char c) r, ?_⟩
    show (match pAtomQ (f3 + 2) (c :: rest) with
          | Except.error e => (Except.error e : Except String (RE × List Char))
          | Except.ok (none, rest1) => Except.ok (RE.eps, rest1)
          | Except.ok (some a, rest1) =>
            match pSeq (f3 + 2) rest1 with
            | Except.error e => Except.error e
            | Except.ok (r2, rest2) => Except.ok (RE.concat a r2, rest2))
        = Except.ok (RE.concat (RE.char c) r, [])
    rw [pAtomQ_safe hc rest hrest f3]
    show (match pSeq (f3 + 2) rest with
          | Except.error e => (Except.error e : Except String (RE × List Char))
          | Except.ok (r2, rest2) => Except.ok (RE.concat (RE.char c) r2, rest2))
        = Except.ok (RE.concat (RE.char c) r, [])
    rw [hr]

theorem pAlt_safe (cs : List Char) (f : Nat)
    (h : ∀ c ∈ cs, tagSafeChar c = true) (hf : cs.length + 4 ≤ f) :
    ∃ r, pAlt f cs = .ok (r, ([] : List Char)) := by
  obtain ⟨f1, rfl⟩ : ∃ f1, f = f1 + 1 := ⟨f - 1, by omega⟩
  obtain ⟨r, hr⟩ := pSeq_safe cs f1 h (by omega)
  refine ⟨r, ?_⟩
  show (match pSeq f1 cs with
        | Except.error e => (Except.error e : Except String (RE × List Char))
        | Except.ok (r2, rest) =>
          match rest with
          | '|' :: rest2 =>
            match pAlt f1 rest2 with
            | Except.error e => Except.error e
            | Except.ok (r3, rest3) => Except.ok (RE.alt r2 r3, rest3)
          | _ => Except.ok (r2, rest))
      = Except.ok (r, [])
  rw [hr]

theorem parseRE_safe (cs : List Char)
    (h : ∀ c ∈ cs, tagSafeChar c = true) : ∃ r, parseRE cs = .ok r := by
  obtain ⟨r, hr⟩ := pAlt_safe cs (parseFuel cs) h (by unfold parseFuel; omega)
  exact ⟨r, by simp only [parseRE]; rw [hr]⟩

theorem tagRest_safe {c : Char} (h : tagRestChar c = true) :
    tagSafeChar c = true := by
  unfold tagRestChar at h
  unfold tagSafeChar
  rcases Bool.or_eq_true_iff.mp h with h | h
  · rcases Bool.or_eq_true_iff.mp h with h | h <;> simp [h]
  · simp [h]

theorem tagCapture_safe (cs : List Char) (cap : List Char)
    (h : tagFilterCapture cs = some cap) :
    ∀ c ∈ cs, tagSafeChar c = true := by
  unfold tagFilterCapture at h
  split at h
  next c1 c2 c3 c4 c5 rest =>
    split at h
    next hcond =>
      simp only [Bool.and_eq_true, decide_eq_true_eq, ciIs,
        Bool.or_eq_true] at hcond
      obtain ⟨⟨⟨⟨h1, h2⟩, h3⟩, h4⟩, h5⟩ := hcond
      split at h
      next => exact absurd h (by simp)
      next w ws =>
        split at h
        next hw =>
          simp only [Bool.and_eq_true] at hw
          intro c hc
          simp only [List.mem_cons] at hc
          rcases hc with rfl | rfl | rfl | rfl | rfl | hc
          · subst h1; decide
          · rcases h2 with rfl | rfl <;> decide
          · rcases h3 with rfl | rfl <;> decide
          · rcases h4 with rfl | rfl <;> decide
          · subst h5; decide
          · rcases hc with rfl | hc
            · simp [tagSafeChar, hw.1]
            · exact tagRest_safe (List.all_eq_true.mp hw.2 c hc)
        next => exact absurd h (by simp)
    next => exact absurd h (by simp)
  next => exact absurd h (by simp)

theorem dropWhile_all {p : Char → Bool} :
    ∀ l : List Char, l.dropWhile p = [] → ∀ c ∈ l, p c = true := by
  intro l
  induction l with
  | nil => intro _ c hc; simp at hc
  | cons a t ih =>
    intro h c hc
    rw [List.dropWhile_cons] at h
    by_cases ha : p a = true
    · rw [if_pos ha] at h
      rcases List.mem_cons.mp hc with rfl | hc2
      · exact ha
      · exact ih h c hc2
    · rw [if_neg ha] at h
      exact absurd h (by simp)

theorem dropWhile_head_false {p : Char → Bool} :
    ∀ (l : List Char) (c : Char) (t : List Char),
      l.dropWhile p = c :: t → p c = false := by
  intro l
  induction l with
  | nil => intro c t h; simp at h
  | cons a t0 ih =>
    intro c t h
    rw [List.dropWhile_cons] at h
    by_cases ha : p a = true
    · rw [if_pos ha] at h
      exact ih c t h
    · rw [if_neg ha] at h
      injection h with h1 h2
      subst h1
      exact Bool.eq_false_iff.mpr ha

theorem trimL_ne_nil (cs : List Char) (h : trimL cs ≠ []) :
    trimL (trimL cs) ≠ [] := by
  intro hcon
  unfold trimL at hcon
  rw [List.reverse_eq_nil_iff] at hcon
  have hall := dropWhile_all _ hcon
  cases hd : (trimL cs).dropWhile jsIsSpace with
  | nil =>
    have hall2 := dropWhile_all _ hd
    cases hy : (cs.dropWhile jsIsSpace).reverse.dropWhile jsIsSpace with
    | nil =>
      exact h (by unfold trimL; rw [hy]; rfl)
    | cons c t =>
      have hc := dropWhile_head_false _ c t hy
      have hcmem : c ∈ trimL cs := by unfold trimL; rw [hy]; simp
      rw [hall2 c hcmem] at hc
      exact absurd hc (by simp)
  | cons c t =>
    have hc := dropWhile_head_false _ c t hd
    have hcmem : c ∈ ((trimL cs).dropWhile jsIsSpace).reverse := by
      rw [hd]; simp
    rw [hall c hcmem] at hc
    exact absurd hc (by simp)

theorem jsTrim_stable {s : String} (h : jsTrim s ≠ "") :
    jsTrim (jsTrim s) ≠ "" := by
  intro hcon
  have hl : trimL (trimL s.data) = [] := congrArg String.data hcon
  have hne : trimL s.data ≠ [] := by
    intro hz
    exact h (congrArg String.mk hz)
  exact trimL_ne_nil s.data hne hl

theorem invalidMsg_ne_empty (e : String) : ("Invalid regex: " ++ e) ≠ "" := by
  intro h
  have h2 := congrArg String.length h
  rw [String.length_append] at h2
  have h3 : ("Invalid regex: " : String).length = 15 := by decide
  have h4 : ("" : String).length = 0 := rfl
  rw [h3, h4] at h2
  omega

/-- Claim C1: for every input whose trimmed form fails regex
compilation (the model of the `SyntaxError` thrown by
`new RegExp`), `filterTasks` catches the failure internally — it is a
total function, so no exception can reach the caller — and returns the
input task collection unchanged and unfiltered (fail-open), a null
matcher, and the non-empty structured message `Invalid regex: ...`. -/
theorem claim1_failOpen (tasks : List Task') (searchInput : String)
    (caseSensitive : Bool) (e : String)
    (h : parseRE (jsTrim searchInput).data = .error e) :
    filterTasks tasks searchInput caseSensitive
      = ⟨tasks, none, some ("Invalid regex: " ++ e)⟩
    ∧ ("Invalid regex: " ++ e) ≠ "" := by
  refine ⟨?_, invalidMsg_ne_empty e⟩
  have htrim : jsTrim searchInput ≠ "" := by
    intro hts
    rw [hts] at h
    have hok : parseRE ("" : String).data = .ok RE.eps := by decide
    rw [hok] at h
    exact Except.noConfusion h
  have htag : tagFilterCapture (jsTrim searchInput).data = none := by
    cases hc : tagFilterCapture (jsTrim searchInput).data with
    | none => rfl
    | some cap =>
      obtain ⟨r, hr⟩ := parseRE_safe _ (tagCapture_safe _ cap hc)
      rw [hr] at h
      exact Except.noConfusion h
  have hcr : compileRegex (jsTrim searchInput)
      (if caseSensitive then "g" else "gi")
      = (none, some ("Invalid regex: " ++ e)) := by
    unfold compileRegex
    rw [if_neg (jsTrim_stable htrim), h]
  unfold filterTasks
  rw [if_neg htrim]
  simp only [htag, hcr]

/-- Claim C1 witness: the fail-open theorem at the unbalanced-paren
query `"("` and a one-task collection. -/
theorem claim1_witness :
    filterTasks [cexTask] "(" false
      = ⟨[cexTask], none, some ("Invalid regex: " ++ "Unterminated group")⟩
    ∧ ("Invalid regex: " ++ "Unterminated group") ≠ "" :=
  claim1_failOpen [cexTask] "(" false "Unterminated group" (by decide)

/-! ## Claim C7 — escape before highlight -/

/-- Every `<` in the list is immediately followed by `m` or `/`, i.e.
each `<` can only open a `<mark>` or `</mark>` marker.  This is the
safety invariant of the highlighter's output. -/
def ltSafe : List Char → Bool
  | [] => true
  | c :: rest =>
    (if c = '<' then rest.head? = some 'm' || rest.head? = some '/' else true)
      && ltSafe rest

theorem escChar_no_lt {c x : Char} (hx : x ∈ escChar c) : x ≠ '<' := by
  intro hlt
  subst hlt
  unfold escChar at hx
  split_ifs at hx with h1 h2 h3 h4 h5
  · exact absurd hx (by decide)
  · exact absurd hx (by decide)
  · exact absurd hx (by decide)
  · exact absurd hx (by decide)
  · exact absurd hx (by decide)
  · simp at hx
    exact h2 hx.symm

theorem escapeHTML_no_lt (s : String) :
    ∀ x ∈ (escapeHTML s).data, x ≠ '<' := by
  intro x hx
  unfold escapeHTML at hx
  simp only [List.mem_flatten, List.mem_map] at hx
  obtain ⟨l, ⟨c, _, rfl⟩, hxl⟩ := hx
  exact escChar_no_lt hxl

theorem ltSafe_append_noLt {a b : List Char} (ha : ∀ c ∈ a, c ≠ '<')
    (hb : ltSafe b = true) : ltSafe (a ++ b) = true := by
  induction a with
  | nil => simpa using hb
  | cons c t ih =>
    have hc : c ≠ '<' := ha c (by simp)
    simp only [List.cons_append, ltSafe, if_neg hc, Bool.true_and]
    exact ih (fun x hx => ha x (by simp [hx]))

theorem ltSafe_of_noLt {l : List Char} (h : ∀ c ∈ l, c ≠ '<') :
    ltSafe l = true := by
  have h2 := ltSafe_append_noLt h (rfl : ltSafe [] = true)
  simpa using h2

theorem ltSafe_markWrap {seg tail : List Char} (hseg : ∀ c ∈ seg, c ≠ '<')
    (htail : ltSafe tail = true) :
    ltSafe (markOpen ++ seg ++ markClose ++ tail) = true := by
  rw [List.append_assoc, List.append_assoc]
  have h1 : ltSafe (markClose ++ tail) = true := by
    show ltSafe ('<' :: '/' :: 'm' :: 'a' :: 'r' :: 'k' :: '>' :: tail) = true
    simp [ltSafe, htail]
  have h2 : ltSafe (seg ++ (markClose ++ tail)) = true :=
    ltSafe_append_noLt hseg h1
  show ltSafe
    ('<' :: 'm' :: 'a' :: 'r' :: 'k' :: '>' :: (seg ++ (markClose ++ tail)))
    = true
  simp [ltSafe, h2]

theorem ltSafe_scanAllF (m : List Char → Option Nat) :
    ∀ (f : Nat) (s : List Char), s.length < f → (∀ c ∈ s, c ≠ '<') →
      ltSafe (scanAllF m f s) = true := by
  intro f
  induction f with
  | zero => intro s hs _; exact absurd hs (by omega)
  | succ f ih =>
    intro s hs hlt
    cases s with
    | nil =>
      show ltSafe (match m [] with
        | some _ => markOpen ++ markClose
        | none => []) = true
      cases m [] with
      | none => rfl
      | some k =>
        show ltSafe (markOpen ++ markClose) = true
        decide
    | cons c rest =>
      have hc : c ≠ '<' := hlt c (by simp)
      have hrest : ∀ x ∈ rest, x ≠ '<' := fun x hx => hlt x (by simp [hx])
      have hlen : rest.length < f := by
        simp only [List.length_cons] at hs; omega
      show ltSafe (match m (c :: rest) with
          | some (n + 1) =>
            markOpen ++ (c :: rest).take (n + 1) ++ markClose
              ++ scanAllF m f ((c :: rest).drop (n + 1))
          | some 0 => markOpen ++ markClose ++ c :: scanAllF m f rest
          | none => c :: scanAllF m f rest) = true
      cases hm : m (c :: rest) with
      | none =>
        show ltSafe (c :: scanAllF m f rest) = true
        simp only [ltSafe, if_neg hc, Bool.true_and]
        exact ih rest hlen hrest
      | some k =>
        cases k with
        | zero =>
          show ltSafe (markOpen ++ markClose ++ c :: scanAllF m f rest) = true
          have htail : ltSafe (c :: scanAllF m f rest) = true := by
            simp only [ltSafe, if_neg hc, Bool.true_and]
            exact ih rest hlen hrest
          have hw := @ltSafe_markWrap ([] : List Char)
            (c :: scanAllF m f rest) (by simp) htail
          simpa using hw
        | succ j =>
          show ltSafe (markOpen ++ (c :: rest).take (j + 1) ++ markClose
              ++ scanAllF m f ((c :: rest).drop (j + 1))) = true
          have hseg : ∀ x ∈ (c :: rest).take (j + 1), x ≠ '<' :=
            fun x hx => hlt x (List.take_subset _ _ hx)
          have htail :
              ltSafe (scanAllF m f ((c :: rest).drop (j + 1))) = true := by
            apply ih
            · simp only [List.length_drop, List.length_cons]
              omega
            · exact fun x hx => hlt x (List.drop_subset _ _ hx)
          exact ltSafe_markWrap hseg htail

theorem ltSafe_scanAll (m : List Char → Option Nat) (s : List Char)
    (h : ∀ c ∈ s, c ≠ '<') : ltSafe (scanAll m s) = true :=
  ltSafe_scanAllF m (s.length + 1) s (by omega) h

theorem no_script_of_ltSafe :
    ∀ s : List Char, ltSafe s = true →
      containsSeq ("<script>".data) s = false := by
  intro s
  induction s with
  | nil => intro _; decide
  | cons c rest ih =>
    intro h
    simp only [ltSafe, Bool.and_eq_true] at h
    obtain ⟨hcond, hrest⟩ := h
    show (seqPrefix ("<script>".data) (c :: rest)
      || containsSeq ("<script>".data) rest) = false
    rw [ih hrest, Bool.or_false]
    by_cases hc : c = '<'
    · subst hc
      rw [if_pos rfl] at hcond
      cases rest with
      | nil => decide
      | cons d rest2 =>
        simp only [List.head?, Option.some.injEq] at hcond
        rcases Bool.or_eq_true_iff.mp hcond with h | h
        · obtain rfl : d = 'm' := by simpa using h
          simp [seqPrefix]
        · obtain rfl : d = '/' := by simpa using h
          simp [seqPrefix]
    · have hc2 : ('<' : Char) ≠ c := fun hh => hc hh.symm
      simp [seqPrefix, hc2]

/-- Claim C7: `highlight` HTML-escapes the raw text before wrapping
matches, so for every input text and every matcher each `<` of the
output only opens a `<mark>` or `</mark>` marker and the output never
contains the substring `<script>`; concretely, highlighting the text
`<script>` with a compiled matcher for `script` yields
`&lt;<mark>script</mark>&gt;` — escaping happened before marking. -/
theorem claim7_highlightEscapes (text : String) (regex : Option JSRegex) :
    ltSafe (highlight text regex).data = true
    ∧ containsSeq ("<script>".data) (highlight text regex).data = false
    ∧ highlight "<script>" (compileRegex "script" "gi").1
        = "&lt;<mark>script</mark>&gt;" := by
  have hmain : ltSafe (highlight text regex).data = true := by
    unfold highlight
    cases regex with
    | none => exact ltSafe_of_noLt (escapeHTML_no_lt text)
    | some r =>
      show ltSafe ((if text = "" then escapeHTML text
        else (⟨scanAll (fun cs => matchAt r.ci r.re cs)
          (escapeHTML text).data⟩ : String)).data) = true
      by_cases ht : text = ""
      · rw [if_pos ht]
        exact ltSafe_of_noLt (escapeHTML_no_lt text)
      · rw [if_neg ht]
        exact ltSafe_scanAll _ _ (escapeHTML_no_lt text)
  exact ⟨hmain, no_script_of_ltSafe _ hmain, by decide⟩

/-! ## Claim C5 — sorting

`sortTasks` sorts a copy with a three-way comparator.  Since ES2019,
`Array.prototype.sort` is specified to be stable, and for a consistent
comparator its output is the unique stably-sorted permutation; insertion
sort with the non-strict order `comparator ≤ 0` computes exactly that
permutation, so it is the faithful model of the source's sort. -/

/-- `toLowerCase` for the title comparison. -/
def lowerStr (s : String) : String := ⟨lowerL s.data⟩

/-- `direction === 'asc' ? 1 : -1`. -/
def dirOf (direction : String) : Int := if direction = "asc" then 1 else -1

/-- The three-way comparator body on strings
(`valA < valB → -1*dir; valA > valB → 1*dir; ties → 0`). -/
def cmpStr (a b : String) (dir : Int) : Int :=
  if a < b then -1 * dir else if b < a then 1 * dir else 0

/-- The three-way comparator body on numbers. -/
def cmpQ (a b : ℚ) (dir : Int) : Int :=
  if a < b then -1 * dir else if b < a then 1 * dir else 0

/-- The `switch (field)` of the comparator in `sortTasks`; an unknown
field compares everything equal (`default: return 0`). -/
def taskCmp (field : String) (dir : Int) (a b : Task') : Int :=
  if field = "date" then cmpStr a.dueDate b.dueDate dir
  else if field = "title" then cmpStr (lowerStr a.title) (lowerStr b.title) dir
  else if field = "duration" then cmpQ a.duration b.duration dir
  else 0

/-- Stable insertion of `a` before the first element `b` with
`le a b`. -/
def orderedInsertB (le : Task' → Task' → Bool) (a : Task') :
    List Task' → List Task'
  | [] => [a]
  | b :: l => if le a b then a :: b :: l else b :: orderedInsertB le a l

/-- Stable insertion sort. -/
def insertionSortB (le : Task' → Task' → Bool) : List Task' → List Task'
  | [] => []
  | a :: l => orderedInsertB le a (insertionSortB le l)

/-- `sortTasks(field, direction)` from `state.js`: returns a sorted
copy (`[...this.tasks].sort(...)`), leaving the store untouched. -/
def sortTasks (s : Store) (field direction : String) : List Task' :=
  insertionSortB
    (fun a b => decide (taskCmp field (dirOf direction) a b ≤ 0)) s.tasks

/-- The ascending duration order used by `sortTasks('duration','asc')`. -/
def ascB (a b : Task') : Bool := decide (taskCmp "duration" 1 a b ≤ 0)

/-- The descending duration order used by
`sortTasks('duration','desc')`. -/
def descB (a b : Task') : Bool := decide (taskCmp "duration" (-1) a b ≤ 0)

theorem taskCmp_duration (dir : Int) (a b : Task') :
    taskCmp "duration" dir a b = cmpQ a.duration b.duration dir := by
  simp [taskCmp]

theorem ascB_iff (a b : Task') : ascB a b = true ↔ a.duration ≤ b.duration := by
  unfold ascB
  rw [decide_eq_true_eq, taskCmp_duration]
  unfold cmpQ
  split_ifs with h1 h2
  · exact iff_of_true (by norm_num) (le_of_lt h1)
  · exact iff_of_false (by norm_num) (not_le.mpr h2)
  · exact iff_of_true (by norm_num) (le_of_eq (le_antisymm (not_lt.mp h2) (not_lt.mp h1)))

theorem descB_iff (a b : Task') : descB a b = true ↔ b.duration ≤ a.duration := by
  unfold descB
  rw [decide_eq_true_eq, taskCmp_duration]
  unfold cmpQ
  split_ifs with h1 h2
  · exact iff_of_false (by norm_num) (not_le.mpr h1)
  · exact iff_of_true (by norm_num) (le_of_lt h2)
  · exact iff_of_true (by norm_num) (le_of_eq (le_antisymm (not_lt.mp h1) (not_lt.mp h2)))

theorem mem_orderedInsertB (le : Task' → Task' → Bool) (a : Task') :
    ∀ (l : List Task') (x : Task'),
      x ∈ orderedInsertB le a l ↔ x = a ∨ x ∈ l := by
  intro l
  induction l with
  | nil => intro x; simp [orderedInsertB]
  | cons b t ih =>
    intro x
    unfold orderedInsertB
    by_cases hb : le a b
    · rw [if_pos hb]
      simp only [List.mem_cons]
    · rw [if_neg hb]
      simp only [List.mem_cons, ih]
      tauto

theorem perm_orderedInsertB (le : Task' → Task' → Bool) (a : Task') :
    ∀ l : List Task', (orderedInsertB le a l).Perm (a :: l) := by
  intro l
  induction l with
  | nil => simp [orderedInsertB]
  | cons b t ih =>
    unfold orderedInsertB
    by_cases hb : le a b
    · rw [if_pos hb]
    · rw [if_neg hb]
      exact (ih.cons b).trans (List.Perm.swap a b t)

theorem perm_insertionSortB (le : Task' → Task' → Bool) :
    ∀ l : List Task', (insertionSortB le l).Perm l := by
  intro l
  induction l with
  | nil => rfl
  | cons a t ih =>
    unfold insertionSortB
    exact (perm_orderedInsertB le a (insertionSortB le t)).trans (ih.cons a)

theorem pairwise_orderedInsertB (le : Task' → Task' → Bool)
    (htot : ∀ a b, le a b = true ∨ le b a = true)
    (htrans : ∀ a b c, le a b = true → le b c = true → le a c = true)
    (a : Task') :
    ∀ l, List.Pairwise (fun x y => le x y = true) l →
      List.Pairwise (fun x y => le x y = true) (orderedInsertB le a l) := by
  intro l
  induction l with
  | nil => intro _; simp [orderedInsertB]
  | cons b t ih =>
    intro hp
    obtain ⟨hb, ht⟩ := List.pairwise_cons.mp hp
    unfold orderedInsertB
    by_cases hab : le a b
    · rw [if_pos hab]
      refine List.pairwise_cons.mpr ⟨?_, hp⟩
      intro x hx
      rcases List.mem_cons.mp hx with rfl | hx2
      · exact hab
      · exact htrans a b x hab (hb x hx2)
    · rw [if_neg hab]
      have hba : le b a = true := (htot a b).resolve_left hab
      refine List.pairwise_cons.mpr ⟨?_, ih ht⟩
      intro x hx
      rcases (mem_orderedInsertB le a t x).mp hx with rfl | hx2
      · exact hba
      · exact hb x hx2

theorem pairwise_insertionSortB (le : Task' → Task' → Bool)
    (htot : ∀ a b, le a b = true ∨ le b a = true)
    (htrans : ∀ a b c, le a b = true → le b c = true → le a c = true) :
    ∀ l, List.Pairwise (fun x y => le x y = true) (insertionSortB le l) := by
  intro l
  induction l with
  | nil => simp [insertionSortB]
  | cons a t ih =>
    unfold insertionSortB
    exact pairwise_orderedInsertB le htot htrans a _ ih

theorem ascB_false_ne {a b : Task'} (h : ascB a b = false) :
    a.duration ≠ b.duration := by
  intro he
  have : ascB a b = true := (ascB_iff a b).mpr (le_of_eq he)
  rw [this] at h
  exact absurd h (by simp)

theorem descB_false_ne {a b : Task'} (h : descB a b = false) :
    a.duration ≠ b.duration := by
  intro he
  have : descB a b = true := (descB_iff a b).mpr (le_of_eq he.symm)
  rw [this] at h
  exact absurd h (by simp)

theorem filter_orderedInsertB (le : Task' → Task' → Bool)
    (hne : ∀ a b, le a b = false → a.duration ≠ b.duration) (a : Task')
    (k : ℚ) :
    ∀ l, (orderedInsertB le a l).filter (fun t => t.duration == k)
      = if a.duration == k then a :: l.filter (fun t => t.duration == k)
        else l.filter (fun t => t.duration == k) := by
  intro l
  induction l with
  | nil =>
    by_cases hk : a.duration == k <;>
      simp [orderedInsertB, List.filter_cons, hk]
  | cons b t ih =>
    unfold orderedInsertB
    by_cases hab : le a b
    · rw [if_pos hab]
      by_cases hk : (a.duration == k) = true <;>
        simp [List.filter_cons, hk]
    · rw [if_neg hab]
      have hne2 : a.duration ≠ b.duration :=
        hne a b (Bool.eq_false_iff.mpr hab)
      by_cases hk : (a.duration == k) = true
      · have hak : a.duration = k := by simpa using hk
        have hbk : (b.duration == k) = false := by
          simp only [beq_eq_false_iff_ne, ne_eq]
          intro hbe
          exact hne2 (hak.trans hbe.symm)
        rw [if_pos hk]
        rw [List.filter_cons, List.filter_cons]
        simp [hbk, ih, hk]
      · rw [if_neg hk]
        rw [List.filter_cons, List.filter_cons]
        by_cases hbk : (b.duration == k) = true <;>
          simp [hbk, ih, hk]

theorem filter_insertionSortB (le : Task' → Task' → Bool)
    (hne : ∀ a b, le a b = false → a.duration ≠ b.duration) (k : ℚ) :
    ∀ l, (insertionSortB le l).filter (fun t => t.duration == k)
      = l.filter (fun t => t.duration == k) := by
  intro l
  induction l with
  | nil => rfl
  | cons a t ih =>
    unfold insertionSortB
    rw [filter_orderedInsertB le hne a k, List.filter_cons]
    by_cases hk : (a.duration == k) = true <;> simp [hk, ih]

theorem sortedB_unique :
    ∀ l₁ l₂ : List Task', l₁.Perm l₂ →
      List.Pairwise (fun a b => ascB a b = true) l₁ →
      List.Pairwise (fun a b => ascB a b = true) l₂ →
      (l₁.map Task'.duration).Nodup → l₁ = l₂ := by
  intro l₁
  induction l₁ with
  | nil =>
    intro l₂ hp _ _ _
    exact (hp.symm.eq_nil).symm
  | cons a t ih =>
    intro l₂ hp hs₁ hs₂ hnd
    cases l₂ with
    | nil => exact absurd hp.eq_nil (by simp)
    | cons b t₂ =>
      by_cases hab : a = b
      · subst hab
        have hpt : t.Perm t₂ := hp.cons_inv
        rw [ih t₂ hpt (List.pairwise_cons.mp hs₁).2 (List.pairwise_cons.mp hs₂).2
          (List.nodup_cons.mp (by simpa using hnd)).2]
      · have ha2 : a ∈ t₂ := by
          have hmem : a ∈ b :: t₂ := hp.mem_iff.mp (List.mem_cons_self a t)
          rcases List.mem_cons.mp hmem with h | h
          · exact absurd h hab
          · exact h
        have hb2 : b ∈ t := by
          have hmem : b ∈ a :: t := hp.mem_iff.mpr (List.mem_cons_self b t₂)
          rcases List.mem_cons.mp hmem with h | h
          · exact absurd h.symm hab
          · exact h
        have h1 : ascB a b = true := (List.pairwise_cons.mp hs₁).1 b hb2
        have h2 : ascB b a = true := (List.pairwise_cons.mp hs₂).1 a ha2
        have heq : a.duration = b.duration :=
          le_antisymm ((ascB_iff a b).mp h1) ((ascB_iff b a).mp h2)
        have hmem : a.duration ∈ t.map Task'.duration :=
          List.mem_map.mpr ⟨b, hb2, heq.symm⟩
        exact absurd hmem (List.nodup_cons.mp (by simpa using hnd)).1

theorem insertionSortB_sorted_eq (le : Task' → Task' → Bool) :
    ∀ l, List.Pairwise (fun a b => le a b = true) l →
      insertionSortB le l = l := by
  intro l
  induction l with
  | nil => intro _; rfl
  | cons a t ih =>
    intro hp
    obtain ⟨hhead, htail⟩ := List.pairwise_cons.mp hp
    unfold insertionSortB
    rw [ih htail]
    cases t with
    | nil => rfl
    | cons b t2 =>
      unfold orderedInsertB
      rw [if_pos (hhead b (by simp))]

theorem ascB_total : ∀ a b : Task', ascB a b = true ∨ ascB b a = true := by
  intro a b
  rw [ascB_iff, ascB_iff]
  exact le_total _ _

theorem ascB_trans : ∀ a b c : Task', ascB a b = true → ascB b c = true →
    ascB a c = true := by
  intro a b c hab hbc
  rw [ascB_iff] at *
  exact le_trans hab hbc

theorem descB_total : ∀ a b : Task', descB a b = true ∨ descB b a = true := by
  intro a b
  rw [descB_iff, descB_iff]
  exact le_total _ _

theorem descB_trans : ∀ a b c : Task', descB a b = true → descB b c = true →
    descB a c = true := by
  intro a b c hab hbc
  rw [descB_iff] at *
  exact le_trans hbc hab

theorem sortTasks_asc_eq (s : Store) :
    sortTasks s "duration" "asc" = insertionSortB ascB s.tasks := by
  have h : dirOf "asc" = 1 := by decide
  unfold sortTasks ascB
  rw [h]

theorem sortTasks_desc_eq (s : Store) :
    sortTasks s "duration" "desc" = insertionSortB descB s.tasks := by
  have h : dirOf "desc" = -1 := by decide
  unfold sortTasks descB
  rw [h]

/-! Claim C5 fixtures: two tasks of equal duration. -/

def sortTaskA : Task' := ⟨"s1", "A", "2025-01-01", 5, "Study", "", "c", "c"⟩

def sortTaskB : Task' := ⟨"s2", "B", "2025-01-02", 5, "Club", "", "c", "c"⟩

def sortStore : Store := ⟨[sortTaskA, sortTaskB], demoSettings, []⟩

/-- Claim C5 counterexample: with two tasks of equal duration, both
sorts are stable and keep the stored order, so the descending sequence
equals the ascending one and is NOT its reverse — the exact-reverse
claim fails on ties. -/
theorem claim5_counterexample :
    sortTasks sortStore "duration" "desc"
        ≠ (sortTasks sortStore "duration" "asc").reverse
    ∧ sortTasks sortStore "duration" "desc"
        = sortTasks sortStore "duration" "asc" := by
  constructor
  · decide
  · decide

/-- Claim C5 (amended): `sortTasks('duration','desc')` is the exact
reverse of `sortTasks('duration','asc')` whenever the stored durations
are pairwise distinct (on ties stability makes both sorts keep the
stored order, so the reverse claim fails there); both sorts are stable
— tasks of equal duration keep their stored relative order — repeated
calls are deterministic by construction, and re-sorting an already
sorted sequence returns it unchanged (idempotence). -/
theorem claim5_sorting (s : Store) (k : ℚ) :
    ((s.tasks.map Task'.duration).Nodup →
      sortTasks s "duration" "desc" = (sortTasks s "duration" "asc").reverse)
    ∧ (sortTasks s "duration" "asc").filter (fun t => t.duration == k)
        = s.tasks.filter (fun t => t.duration == k)
    ∧ (sortTasks s "duration" "desc").filter (fun t => t.duration == k)
        = s.tasks.filter (fun t => t.duration == k)
    ∧ sortTasks { s with tasks := sortTasks s "duration" "asc" } "duration"
        "asc" = sortTasks s "duration" "asc"
    ∧ sortTasks { s with tasks := sortTasks s "duration" "desc" } "duration"
        "desc" = sortTasks s "duration" "desc" := by
  refine ⟨?_, ?_, ?_, ?_, ?_⟩
  · intro hnd
    rw [sortTasks_desc_eq, sortTasks_asc_eq]
    have hsA := pairwise_insertionSortB ascB ascB_total ascB_trans s.tasks
    have hsD := pairwise_insertionSortB descB descB_total descB_trans s.tasks
    have hsDrev : List.Pairwise (fun a b => ascB a b = true)
        (insertionSortB descB s.tasks).reverse := by
      rw [List.pairwise_reverse]
      refine hsD.imp ?_
      intro a b hab
      rw [descB_iff] at hab
      rw [ascB_iff]
      exact hab
    have hpA := perm_insertionSortB ascB s.tasks
    have hpD := perm_insertionSortB descB s.tasks
    have hpDrev : (insertionSortB descB s.tasks).reverse.Perm s.tasks :=
      (List.reverse_perm _).trans hpD
    have hndA : ((insertionSortB ascB s.tasks).map Task'.duration).Nodup :=
      ((hpA.map Task'.duration).nodup_iff).mpr hnd
    have heq : insertionSortB ascB s.tasks
        = (insertionSortB descB s.tasks).reverse :=
      sortedB_unique _ _ (hpA.trans hpDrev.symm) hsA hsDrev hndA
    rw [heq, List.reverse_reverse]
  · rw [sortTasks_asc_eq]
    exact filter_insertionSortB ascB (fun a b h => ascB_false_ne h) k s.tasks
  · rw [sortTasks_desc_eq]
    exact filter_insertionSortB descB (fun a b h => descB_false_ne h) k s.tasks
  · rw [sortTasks_asc_eq, sortTasks_asc_eq]
    exact insertionSortB_sorted_eq ascB _
      (pairwise_insertionSortB ascB ascB_total ascB_trans s.tasks)
  · rw [sortTasks_desc_eq, sortTasks_desc_eq]
    exact insertionSortB_sorted_eq descB _
      (pairwise_insertionSortB descB descB_total descB_trans s.tasks)

/-- Claim C5 witness: the amended theorem at a two-task store with
distinct durations, discharging the no-duplicate hypothesis. -/
theorem claim5_witness :
    sortTasks ⟨[{ sortTaskA with duration := 7 }, sortTaskB], demoSettings,
        []⟩ "duration" "desc"
      = (sortTasks ⟨[{ sortTaskA with duration := 7 }, sortTaskB],
          demoSettings, []⟩ "duration" "asc").reverse
    ∧ (sortTasks ⟨[{ sortTaskA with duration := 7 }, sortTaskB],
        demoSettings, []⟩ "duration" "asc").filter
          (fun t => t.duration == (5 : ℚ))
      = [{ sortTaskA with duration := 7 }, sortTaskB].filter
          (fun t => t.duration == (5 : ℚ)) :=
  ⟨((claim5_sorting ⟨[{ sortTaskA with duration := 7 }, sortTaskB],
      demoSettings, []⟩ 5).1 (by decide)),
   (claim5_sorting ⟨[{ sortTaskA with duration := 7 }, sortTaskB],
      demoSettings, []⟩ 5).2.1⟩

/-! ## JSON (`scripts/storage.js`)

`exportJSON` is `JSON.stringify(tasks, null, 2)` and `validateImport`
starts with `JSON.parse`.  JSON text is modelled over `List Char`; the
printer reproduces the 2-space pretty-printing of `JSON.stringify` on a
task array, and the parser covers the JSON grammar as exercised by such
documents (strings with the standard escapes including `\uXXXX`, plain
decimal numbers, nested arrays/objects, `true`/`false`/`null`);
exponent notation in numbers is outside the modelled subset and never
produced by the printer. -/

inductive Json
  | str (s : String)
  | num (q : ℚ)
  | arr (items : List Json)
  | obj (fields : List (String × Json))
  | boolJ (b : Bool)
  | nullJ

/-- Lower-case hex digit. -/
def hexDigit (d : Nat) : Char :=
  if d < 10 then digitChar d else Char.ofNat (87 + d)

/-- Value of a hex digit character. -/
def hexVal (c : Char) : Nat :=
  if isDigitB c then digitVal c else c.toNat - 87

/-- `JSON.stringify` escaping of one string character. -/
def escJ (c : Char) : List Char :=
  if c = '"' then ['\\', '"']
  else if c = '\\' then ['\\', '\\']
  else if c = '\n' then ['\\', 'n']
  else if c = '\r' then ['\\', 'r']
  else if c = '\t' then ['\\', 't']
  else if c = '\x08' then ['\\', 'b']
  else if c = '\x0c' then ['\\', 'f']
  else if c.toNat < 32 then
    ['\\', 'u', '0', '0', hexDigit (c.toNat / 16), hexDigit (c.toNat % 16)]
  else [c]

/-- Body of a JSON string literal. -/
def encodeStrBody (l : List Char) : List Char := (l.map escJ).flatten

/-- A whole JSON string literal. -/
def encodeStr (s : String) : List Char :=
  '"' :: encodeStrBody s.data ++ ['"']

/-- JSON whitespace. -/
def jsonWS (c : Char) : Bool := c = ' ' || c = '\n' || c = '\t' || c = '\r'

def skipWS (cs : List Char) : List Char := cs.dropWhile jsonWS

/-- Parse the body of a string literal up to the closing quote. -/
def parseJStrL : List Char → Option (List Char × List Char)
  | [] => none
  | c :: rest =>
    if c = '"' then some ([], rest)
    else if c = '\\' then
      match rest with
      | [] => none
      | e :: rest2 =>
        if e = 'u' then
          match rest2 with
          | h1 :: h2 :: h3 :: h4 :: rest3 =>
            (parseJStrL rest3).map (fun x =>
              (Char.ofNat (((hexVal h1 * 16 + hexVal h2) * 16 + hexVal h3) * 16
                + hexVal h4) :: x.1, x.2))
          | _ => none
        else
          let d := if e = 'n' then '\n'
            else if e = 't' then '\t'
            else if e = 'r' then '\r'
            else if e = 'b' then '\x08'
            else if e = 'f' then '\x0c'
            else e
          (parseJStrL rest2).map (fun x => (d :: x.1, x.2))
    else (parseJStrL rest).map (fun x => (c :: x.1, x.2))

/-- Greedy digit reader over the JSON digit class. -/
def readDigitsJ : List Char → Nat → Nat → Nat × Nat × List Char
  | c :: cs, acc, n =>
    if isDigitB c then readDigitsJ cs (acc * 10 + digitVal c) (n + 1)
    else (acc, n, c :: cs)
  | [], acc, n => (acc, n, [])

/-- Parse a JSON number (plain decimal notation; exponent notation is
outside the modelled subset and never occurs in the streams parsed
here). -/
def parseJNum (cs : List Char) : Option (ℚ × List Char) :=
  let signed : Bool × List Char :=
    match cs with
    | c :: r => if c = '-' then (true, r) else (false, c :: r)
    | [] => (false, [])
  let (ip, ni, r1) := readDigitsJ signed.2 0 0
  if ni = 0 then none
  else
    match r1 with
    | c1 :: rr =>
      if c1 = '.' then
        let (fp, nf, r2) := readDigitsJ rr 0 0
        if nf = 0 then none
        else
          let v : ℚ := (ip : ℚ) + (fp : ℚ) / (10 : ℚ) ^ nf
          some (if signed.1 then -v else v, r2)
      else some ((if signed.1 then -(ip : ℚ) else (ip : ℚ)), c1 :: rr)
    | [] => some ((if signed.1 then -(ip : ℚ) else (ip : ℚ)), [])

/-- Match an expected literal character sequence. -/
def dropLit : List Char → List Char → Option (List Char)
  | [], cs => some cs
  | l :: ls, c :: cs => if c = l then dropLit ls cs else none
  | _ :: _, [] => none

mutual

/-- Parse one JSON value. -/
def parseJVal : Nat → List Char → Option (Json × List Char)
  | 0, _ => none
  | f + 1, cs =>
    match skipWS cs with
    | [] => none
    | c :: rest =>
      if c = '"' then (parseJStrL rest).map (fun x => (Json.str ⟨x.1⟩, x.2))
      else if c = '[' then
        match skipWS rest with
        | [] => (parseJItems f rest).map (fun x => (Json.arr x.1, x.2))
        | c2 :: rest2 =>
          if c2 = ']' then some (Json.arr [], rest2)
          else (parseJItems f rest).map (fun x => (Json.arr x.1, x.2))
      else if c = '{' then
        match skipWS rest with
        | [] => (parseJFields f rest).map (fun x => (Json.obj x.1, x.2))
        | c2 :: rest2 =>
          if c2 = '}' then some (Json.obj [], rest2)
          else (parseJFields f rest).map (fun x => (Json.obj x.1, x.2))
      else if c = 't' then
        (dropLit ['r', 'u', 'e'] rest).map (fun r => (Json.boolJ true, r))
      else if c = 'f' then
        (dropLit ['a', 'l', 's', 'e'] rest).map (fun r => (Json.boolJ false, r))
      else if c = 'n' then
        (dropLit ['u', 'l', 'l'] rest).map (fun r => (Json.nullJ, r))
      else (parseJNum (c :: rest)).map (fun x => (Json.num x.1, x.2))

/-- Parse the comma-separated items of a non-empty array, including the
closing bracket. -/
def parseJItems : Nat → List Char → Option (List Json × List Char)
  | 0, _ => none
  | f + 1, cs =>
    match parseJVal f cs with
    | none => none
    | some (v, r) =>
      match skipWS r with
      | [] => none
      | c :: r2 =>
        if c = ',' then (parseJItems f r2).map (fun x => (v :: x.1, x.2))
        else if c = ']' then some ([v], r2)
        else none

/-- Parse the fields of a non-empty object, including the closing
brace. -/
def parseJFields : Nat → List Char → Option (List (String × Json) × List Char)
  | 0, _ => none
  | f + 1, cs =>
    match skipWS cs with
    | [] => none
    | c :: rest =>
      if c = '"' then
        match parseJStrL rest with
        | none => none
        | some (key, r1) =>
          match skipWS r1 with
          | [] => none
          | c1 :: r2 =>
            if c1 = ':' then
              match parseJVal f r2 with
              | none => none
              | some (v, r3) =>
                match skipWS r3 with
                | [] => none
                | c3 :: r4 =>
                  if c3 = ',' then
                    (parseJFields f r4).map (fun x => ((⟨key⟩, v) :: x.1, x.2))
                  else if c3 = '}' then some ([(⟨key⟩, v)], r4)
                  else none
            else none
      else none

end

/-- `JSON.parse`: fuel linear in the input length always suffices. -/
def parseJson (s : String) : Except String Json :=
  match parseJVal (2 * s.length + 8) s.data with
  | some (v, rest) =>
    if skipWS rest = [] then .ok v
    else .error "Unexpected non-whitespace character after JSON data"
  | none => .error "Unexpected end of JSON input"

/-! ### The printer (`JSON.stringify(tasks, null, 2)`) -/

def jIndent (n : Nat) : List Char := List.replicate n ' '

def joinSep (sep : List Char) : List (List Char) → List Char
  | [] => []
  | [x] => x
  | x :: xs => x ++ sep ++ joinSep sep xs

/-- One `"key": value` line at the 4-space field indentation. -/
def fieldLine (key : String) (v : List Char) : List Char :=
  jIndent 4 ++ encodeStr key ++ ':' :: ' ' :: v

/-- One task object as printed at nesting depth 1, keys in the
insertion order of the task objects built by the application. -/
def encodeTaskObj (t : Task') : List Char :=
  '{' :: '\n' :: joinSep [',', '\n']
    [fieldLine "id" (encodeStr t.id),
     fieldLine "title" (encodeStr t.title),
     fieldLine "dueDate" (encodeStr t.dueDate),
     fieldLine "duration" (printNum t.duration).data,
     fieldLine "tag" (encodeStr t.tag),
     fieldLine "notes" (encodeStr t.notes),
     fieldLine "createdAt" (encodeStr t.createdAt),
     fieldLine "updatedAt" (encodeStr t.updatedAt)]
    ++ '\n' :: (jIndent 2 ++ ['}'])

/-- `exportJSON(tasks)`: `JSON.stringify(tasks, null, 2)` on a task
array. -/
def exportJSON (tasks : List Task') : String :=
  match tasks with
  | [] => "[]"
  | _ =>
    ⟨'[' :: '\n' :: joinSep [',', '\n']
        (tasks.map (fun t => jIndent 2 ++ encodeTaskObj t))
      ++ '\n' :: [']']⟩

/-- The `Json` value of one task. -/
def taskToJson (t : Task') : Json :=
  Json.obj
    [("id", Json.str t.id), ("title", Json.str t.title),
     ("dueDate", Json.str t.dueDate), ("duration", Json.num t.duration),
     ("tag", Json.str t.tag), ("notes", Json.str t.notes),
     ("createdAt", Json.str t.createdAt), ("updatedAt", Json.str t.updatedAt)]

/-! ### `validateImport` -/

structure ImportResult where
  valid : Bool
  data : List Task'
  errors : List String
deriving DecidableEq, Repr

/-- First field with the given key (`item.key` access; the documents
built by `exportJSON` never repeat keys). -/
def jLookup (fields : List (String × Json)) (key : String) : Option Json :=
  (fields.find? (fun kv => kv.1 = key)).map (fun kv => kv.2)

/-- `typeof item.k === 'string'` access. -/
def jStrField (fields : List (String × Json)) (key : String) : Option String :=
  match jLookup fields key with
  | some (Json.str s) => some s
  | _ => none

/-- `typeof item.k === 'number'` access. -/
def jNumField (fields : List (String × Json)) (key : String) : Option ℚ :=
  match jLookup fields key with
  | some (Json.num q) => some q
  | _ => none

/-- A present, non-blank string field. -/
def strOkB (v : Option String) : Bool :=
  match v with
  | some s => decide (jsTrim s ≠ "")
  | none => false

def joinComma : List String → String
  | [] => ""
  | [x] => x
  | x :: xs => x ++ ", " ++ joinComma xs

/-- `item.id || 'no-id'` in the error message (ids in the documents
handled here are strings). -/
def itemIdLabel (fields : List (String × Json)) : String :=
  match jStrField fields "id" with
  | some s => if s ≠ "" then s else "no-id"
  | none => "no-id"

/-- The per-item checks of `validateImport`, in source order, plus the
normalization of an accepted item.  The `notes`/timestamp fallbacks
assume those fields are absent or strings, as in every document built
by `exportJSON`. -/
def checkTaskItem (fields : List (String × Json)) (now : String) :
    List String × Option Task' :=
  let idV := jStrField fields "id"
  let titleV := jStrField fields "title"
  let durV := jNumField fields "duration"
  let tagV := jStrField fields "tag"
  let dueV := jStrField fields "dueDate"
  let durOk : Bool := match durV with
    | some q => decide (¬ q < 0)
    | none => false
  let dueOk : Bool := match dueV with
    | some s => datePatL s.data
    | none => false
  let issues :=
    (if strOkB idV then [] else ["missing or invalid id"])
    ++ (if strOkB titleV then [] else ["missing or invalid title"])
    ++ (if durOk then []
        else ["missing or invalid duration (must be non-negative number)"])
    ++ (if strOkB tagV then [] else ["missing or invalid tag"])
    ++ (if dueOk then [] else ["missing or invalid dueDate (YYYY-MM-DD)"])
  match issues, idV, titleV, durV, tagV, dueV with
  | [], some idS, some titleS, some durQ, some tagS, some dueS =>
    ([], some
      { id := idS
        title := jsTrim titleS
        dueDate := dueS
        duration := durQ
        tag := jsTrim tagS
        notes := jsTrim ((jStrField fields "notes").getD "")
        createdAt :=
          match jStrField fields "createdAt" with
          | some s => if s ≠ "" then s else now
          | none => now
        updatedAt :=
          match jStrField fields "updatedAt" with
          | some s => if s ≠ "" then s else now
          | none => now })
  | issues, _, _, _, _, _ => (issues, none)

/-- The `data.forEach((item, i) => ...)` loop: accepted records and
error messages, each in traversal order. -/
def importItems (now : String) : Nat → List Json → List Task' × List String
  | _, [] => ([], [])
  | i, item :: rest =>
    let acc := importItems now (i + 1) rest
    match item with
    | Json.obj fields =>
      match checkTaskItem fields now with
      | ([], some t) => (t :: acc.1, acc.2)
      | (issues, _) =>
        (acc.1, ("Item " ++ natToStr i ++ " (" ++ itemIdLabel fields ++ "): "
          ++ joinComma issues) :: acc.2)
    | _ => (acc.1, ("Item " ++ natToStr i ++ ": Not a valid object.") :: acc.2)

/-- `validateImport(json)` from `storage.js`, on a JSON string (`now`
models `new Date().toISOString()` for the timestamp defaults). -/
def validateImport (json : String) (now : String) : ImportResult :=
  match parseJson json with
  | .error e => ⟨false, [], ["Invalid JSON: " ++ e]⟩
  | .ok (Json.arr items) =>
    let r := importItems now 0 items
    ⟨r.2.isEmpty, r.1, r.2⟩
  | .ok _ => ⟨false, [], ["Data must be an array of task objects."]⟩

/-! ## Claim C8 — import/export round trip: digit-string lemmas -/

/-- Big-endian accumulated value of a digit string. -/
def valAcc (a : Nat) (ds : List Char) : Nat :=
  ds.foldl (fun x c => x * 10 + digitVal c) a

/-- Little-endian value of a digit list. -/
def valLE (l : List Nat) : Nat := l.foldr (fun d a => d + 10 * a) 0

theorem digitChar_spec {d : Nat} (h : d < 10) :
    isDigitB (digitChar d) = true ∧ digitVal (digitChar d) = d := by
  interval_cases d <;> exact ⟨by decide, by decide⟩

theorem natDigitsLEF_lt10 : ∀ (f n : Nat), ∀ d ∈ natDigitsLEF f n, d < 10 := by
  intro f
  induction f with
  | zero => intro n d hd; simp [natDigitsLEF] at hd
  | succ f ih =>
    intro n d hd
    unfold natDigitsLEF at hd
    by_cases hn : n = 0
    · rw [if_pos hn] at hd; simp at hd
    · rw [if_neg hn] at hd
      rcases List.mem_cons.mp hd with rfl | hd2
      · omega
      · exact ih (n / 10) d hd2

theorem natDigitsLEF_val : ∀ (f n : Nat), n ≤ f →
    valLE (natDigitsLEF f n) = n := by
  intro f
  induction f with
  | zero => intro n h; interval_cases n; rfl
  | succ f ih =>
    intro n h
    unfold natDigitsLEF
    by_cases hn : n = 0
    · rw [if_pos hn]; simp [valLE, hn]
    · rw [if_neg hn]
      have h2 : n / 10 ≤ f := by omega
      show n % 10 + 10 * valLE (natDigitsLEF f (n / 10)) = n
      rw [ih (n / 10) h2]
      omega

theorem natDigitsLEF_len : ∀ (f n w : Nat), n ≤ f → n < 10 ^ w →
    (natDigitsLEF f n).length ≤ w := by
  intro f
  induction f with
  | zero =>
    intro n w h _
    interval_cases n
    simp [natDigitsLEF]
  | succ f ih =>
    intro n w h hw
    unfold natDigitsLEF
    by_cases hn : n = 0
    · rw [if_pos hn]; simp
    · rw [if_neg hn]
      have hw1 : 1 ≤ w := by
        by_contra hcon
        have : w = 0 := by omega
        subst this
        simp at hw
        omega
      obtain ⟨w1, rfl⟩ : ∃ w1, w = w1 + 1 := ⟨w - 1, by omega⟩
      have hlt : n / 10 < 10 ^ w1 := by
        rw [Nat.div_lt_iff_lt_mul (by norm_num)]
        calc n < 10 ^ (w1 + 1) := hw
        _ = 10 ^ w1 * 10 := by ring
      have := ih (n / 10) w1 (by omega) hlt
      simp only [List.length_cons]
      omega

theorem valAcc_append (a : Nat) (l l' : List Char) :
    valAcc a (l ++ l') = valAcc (valAcc a l) l' := by
  simp [valAcc, List.foldl_append]

theorem valAcc_rev_map : ∀ (l : List Nat) (a : Nat), (∀ d ∈ l, d < 10) →
    valAcc a ((l.reverse).map digitChar) = a * 10 ^ l.length + valLE l := by
  intro l
  induction l with
  | nil => intro a _; simp [valAcc, valLE]
  | cons d t ih =>
    intro a hd
    have hd10 : d < 10 := hd d (by simp)
    simp only [List.reverse_cons, List.map_append, List.map_cons,
      List.map_nil]
    rw [valAcc_append, ih a (fun x hx => hd x (by simp [hx]))]
    show (a * 10 ^ t.length + valLE t) * 10 + digitVal (digitChar d)
      = a * 10 ^ (d :: t).length + valLE (d :: t)
    rw [(digitChar_spec hd10).2]
    show (a * 10 ^ t.length + valLE t) * 10 + d
      = a * 10 ^ (t.length + 1) + (d + 10 * valLE t)
    ring

theorem natChars_digits (n : Nat) : ∀ c ∈ natChars n, isDigitB c = true := by
  intro c hc
  unfold natChars at hc
  by_cases hn : n = 0
  · rw [if_pos hn] at hc
    simp at hc
    subst hc
    decide
  · rw [if_neg hn] at hc
    obtain ⟨d, hd, rfl⟩ := List.mem_map.mp hc
    exact (digitChar_spec (natDigitsLEF_lt10 n n d (List.mem_reverse.mp hd))).1

theorem natChars_val (n : Nat) : valAcc 0 (natChars n) = n := by
  unfold natChars
  by_cases hn : n = 0
  · rw [if_pos hn]
    subst hn
    decide
  · rw [if_neg hn]
    have := valAcc_rev_map (natDigitsLE n) 0 (natDigitsLEF_lt10 n n)
    unfold natDigitsLE at this ⊢
    rw [this, natDigitsLEF_val n n le_rfl]
    simp

theorem natChars_ne_nil (n : Nat) : natChars n ≠ [] := by
  unfold natChars
  by_cases hn : n = 0
  · rw [if_pos hn]; simp
  · rw [if_neg hn]
    obtain ⟨n1, rfl⟩ : ∃ n1, n = n1 + 1 := ⟨n - 1, by omega⟩
    show ((natDigitsLEF (n1 + 1) (n1 + 1)).reverse.map digitChar) ≠ []
    unfold natDigitsLEF
    rw [if_neg hn]
    simp

theorem natChars_len {n w : Nat} (hw : 1 ≤ w) (h : n < 10 ^ w) :
    (natChars n).length ≤ w := by
  unfold natChars
  by_cases hn : n = 0
  · rw [if_pos hn]; simpa using hw
  · rw [if_neg hn]
    simp only [List.length_map, List.length_reverse]
    exact natDigitsLEF_len n n w le_rfl h

theorem readDigitsJ_append : ∀ (ds rest : List Char) (a n : Nat),
    (∀ c ∈ ds, isDigitB c = true) →
    (∀ c r, rest = c :: r → isDigitB c = false) →
    readDigitsJ (ds ++ rest) a n = (valAcc a ds, n + ds.length, rest) := by
  intro ds
  induction ds with
  | nil =>
    intro rest a n _ hr
    cases rest with
    | nil => simp [readDigitsJ, valAcc]
    | cons c r =>
      show readDigitsJ (c :: r) a n = _
      unfold readDigitsJ
      rw [if_neg (by simp [hr c r rfl])]
      simp [valAcc]
  | cons d ds ih =>
    intro rest a n hds hr
    have hd := hds d (by simp)
    show readDigitsJ (d :: (ds ++ rest)) a n = _
    unfold readDigitsJ
    rw [if_pos hd, ih rest _ _ (fun c hc => hds c (by simp [hc])) hr]
    show (valAcc (a * 10 + digitVal d) ds, n + 1 + ds.length, rest) = _
    refine Prod.ext rfl (Prod.ext ?_ rfl)
    show n + 1 + ds.length = n + (ds.length + 1)
    omega

theorem valAcc_zeros : ∀ z : Nat, valAcc 0 (List.replicate z '0') = 0 := by
  intro z
  induction z with
  | zero => rfl
  | succ z ih =>
    show valAcc 0 ('0' :: List.replicate z '0') = 0
    show valAcc (0 * 10 + digitVal '0') (List.replicate z '0') = 0
    simpa using ih

theorem padZeros_spec (w : Nat) (l : List Char) (hl : l.length ≤ w)
    (hd : ∀ c ∈ l, isDigitB c = true) :
    (padZeros w l).length = w
    ∧ (∀ c ∈ padZeros w l, isDigitB c = true)
    ∧ valAcc 0 (padZeros w l) = valAcc 0 l := by
  refine ⟨?_, ?_, ?_⟩
  · simp [padZeros]
    omega
  · intro c hc
    rcases List.mem_append.mp hc with hc1 | hc2
    · rw [List.eq_of_mem_replicate hc1]; decide
    · exact hd c hc2
  · unfold padZeros
    rw [valAcc_append, valAcc_zeros]

/-! ### String-literal and whitespace round-trip lemmas -/

theorem hexVal_hexDigit {d : Nat} (h : d < 16) : hexVal (hexDigit d) = d := by
  interval_cases d <;> decide

theorem skipWS_append (ws l : List Char) (h : ∀ c ∈ ws, jsonWS c = true) :
    skipWS (ws ++ l) = skipWS l := by
  induction ws with
  | nil => rfl
  | cons c t ih =>
    show skipWS (c :: (t ++ l)) = skipWS l
    unfold skipWS
    rw [List.dropWhile_cons, if_pos (h c (by simp))]
    exact ih (fun c hc => h c (by simp [hc]))

theorem skipWS_not_ws {c : Char} (h : jsonWS c = false) (l : List Char) :
    skipWS (c :: l) = c :: l := by
  unfold skipWS
  rw [List.dropWhile_cons, if_neg (by simp [h])]

theorem digit_not_special {c : Char} (h : isDigitB c = true) :
    jsonWS c = false ∧ c ≠ '"' ∧ c ≠ '[' ∧ c ≠ '{' ∧ c ≠ 't' ∧ c ≠ 'f'
    ∧ c ≠ 'n' ∧ c ≠ '-' ∧ c ≠ '.' := by
  refine ⟨?_, ?_, ?_, ?_, ?_, ?_, ?_, ?_, ?_⟩
  · by_contra hws
    have hws2 : jsonWS c = true := by
      cases hcv : jsonWS c
      · exact absurd hcv hws
      · rfl
    have : c = ' ' ∨ c = '\n' ∨ c = '\t' ∨ c = '\r' := by
      simpa [jsonWS, or_assoc] using hws2
    rcases this with rfl | rfl | rfl | rfl <;> exact absurd h (by decide)
  all_goals rintro rfl
  all_goals exact absurd h (by decide)

theorem parseJStrL_encode : ∀ (l rest : List Char),
    parseJStrL (encodeStrBody l ++ '"' :: rest) = some (l, rest) := by
  intro l
  induction l with
  | nil =>
    intro rest
    show parseJStrL ('"' :: rest) = some ([], rest)
    unfold parseJStrL
    rw [if_pos rfl]
  | cons c t ih =>
    intro rest
    have hsplit : encodeStrBody (c :: t) = escJ c ++ encodeStrBody t := by
      simp [encodeStrBody]
    rw [hsplit, List.append_assoc]
    unfold escJ
    split_ifs with h1 h2 h3 h4 h5 h6 h7 h8
    · subst h1; rw [parseJStrL.eq_def]; simp [ih]
    · subst h2; rw [parseJStrL.eq_def]; simp [ih]
    · subst h3; rw [parseJStrL.eq_def]; simp [ih]
    · subst h4; rw [parseJStrL.eq_def]; simp [ih]
    · subst h5; rw [parseJStrL.eq_def]; simp [ih]
    · subst h6; rw [parseJStrL.eq_def]; simp [ih]
    · subst h7; rw [parseJStrL.eq_def]; simp [ih]
    · rw [parseJStrL.eq_def]
      simp only [List.cons_append]
      have hdiv : c.toNat / 16 < 16 := by omega
      have hmod : c.toNat % 16 < 16 := by omega
      simp [ih, hexVal_hexDigit hdiv, hexVal_hexDigit hmod]
      have hval : ((hexVal '0' * 16 + hexVal '0') * 16 + c.toNat / 16) * 16
          + c.toNat % 16 = c.toNat := by
        have h0 : hexVal '0' = 0 := by decide
        rw [h0]
        omega
      rw [hval, Char.ofNat_toNat]
    · rw [parseJStrL.eq_def]
      simp [ih, h1, h2]

/-! ### Number round-trip lemmas -/

theorem strApp_data (a b : String) : (a ++ b).data = a.data ++ b.data := rfl

theorem parseJNum_lead (c0 : Char) (cs0 rest : List Char) (q : ℚ)
    (hd0 : isDigitB c0 = true)
    (hdig : ∀ c ∈ c0 :: cs0, isDigitB c = true)
    (hrest : ∀ c r, rest = c :: r → isDigitB c = false ∧ c ≠ '.')
    (hval : (valAcc 0 (c0 :: cs0) : ℚ) = q) :
    parseJNum ((c0 :: cs0) ++ rest) = some (q, rest) := by
  have hc0 : ¬ c0 = '-' := by
    rintro rfl; exact absurd hd0 (by decide)
  have hread : readDigitsJ ((c0 :: cs0) ++ rest) 0 0
      = (valAcc 0 (c0 :: cs0), 0 + (c0 :: cs0).length, rest) :=
    readDigitsJ_append _ _ _ _ hdig (fun c r hr => (hrest c r hr).1)
  unfold parseJNum
  simp only [List.cons_append]
  rw [if_neg hc0]
  simp only [List.cons_append] at hread
  rw [hread]
  rw [if_neg (by simp)]
  cases rest with
  | nil => simp [hval]
  | cons c1 rr =>
    have hc1 : ¬ c1 = '.' := (hrest c1 rr rfl).2
    simp [hc1, hval]

theorem parseJNum_decLead (c0 : Char) (cs0 fd rest : List Char) (w : Nat) (q : ℚ)
    (hd0 : isDigitB c0 = true)
    (hdig : ∀ c ∈ c0 :: cs0, isDigitB c = true)
    (hfd : ∀ c ∈ fd, isDigitB c = true)
    (hw : fd.length = w) (hw1 : 1 ≤ w)
    (hrest : ∀ c r, rest = c :: r → isDigitB c = false ∧ c ≠ '.')
    (hval : (valAcc 0 (c0 :: cs0) : ℚ) + (valAcc 0 fd : ℚ) / (10 : ℚ) ^ w = q) :
    parseJNum ((c0 :: cs0) ++ ('.' :: (fd ++ rest))) = some (q, rest) := by
  have hc0 : ¬ c0 = '-' := by
    rintro rfl; exact absurd hd0 (by decide)
  have hread1 : readDigitsJ ((c0 :: cs0) ++ ('.' :: (fd ++ rest))) 0 0
      = (valAcc 0 (c0 :: cs0), 0 + (c0 :: cs0).length, '.' :: (fd ++ rest)) :=
    readDigitsJ_append _ _ _ _ hdig (by rintro c r ⟨rfl, rfl⟩; decide)
  have hread2 : readDigitsJ (fd ++ rest) 0 0
      = (valAcc 0 fd, 0 + fd.length, rest) :=
    readDigitsJ_append _ _ _ _ hfd (fun c r hr => (hrest c r hr).1)
  subst hw
  have hne : fd.length ≠ 0 := by omega
  unfold parseJNum
  simp only [List.cons_append]
  rw [if_neg hc0]
  simp only [List.cons_append] at hread1
  rw [hread1]
  rw [if_neg (by simp)]
  simp [hread2, hne, hval]

theorem parseJNum_natChars (n : Nat) (q : ℚ) (hval : (n : ℚ) = q)
    (rest : List Char)
    (hrest : ∀ c r, rest = c :: r → isDigitB c = false ∧ c ≠ '.') :
    parseJNum (natChars n ++ rest) = some (q, rest) := by
  obtain ⟨c0, cs0, h0⟩ := List.exists_cons_of_ne_nil (natChars_ne_nil n)
  have hdig : ∀ c ∈ c0 :: cs0, isDigitB c = true := by
    rw [← h0]; exact natChars_digits n
  rw [h0]
  refine parseJNum_lead c0 cs0 rest q (hdig c0 (by simp)) hdig hrest ?_
  rw [← h0, natChars_val]
  exact hval

theorem parseJNum_natChars_frac (ipN fpN w : Nat) (q : ℚ) (hw1 : 1 ≤ w)
    (hfp : fpN < 10 ^ w)
    (hval : (ipN : ℚ) + (fpN : ℚ) / (10 : ℚ) ^ w = q)
    (rest : List Char)
    (hrest : ∀ c r, rest = c :: r → isDigitB c = false ∧ c ≠ '.') :
    parseJNum (natChars ipN ++ ('.' :: (padZeros w (natChars fpN) ++ rest)))
      = some (q, rest) := by
  obtain ⟨c0, cs0, h0⟩ := List.exists_cons_of_ne_nil (natChars_ne_nil ipN)
  have hdig : ∀ c ∈ c0 :: cs0, isDigitB c = true := by
    rw [← h0]; exact natChars_digits ipN
  have hpad := padZeros_spec w (natChars fpN) (natChars_len hw1 hfp)
    (natChars_digits fpN)
  rw [h0]
  refine parseJNum_decLead c0 cs0 _ rest w q (hdig c0 (by simp)) hdig
    hpad.2.1 hpad.1 hw1 hrest ?_
  rw [← h0, natChars_val, hpad.2.2, natChars_val]
  exact hval

theorem decExp_dvd {d k : Nat} (h : decExp d = some k) : d ∣ 10 ^ k := by
  simp only [decExp] at h
  split_ifs at h with hd
  · injection h with h2
    subst h2
    set a := factorMult 2 d with ha
    set b := factorMult 5 d with hb
    conv_lhs => rw [hd]
    rw [show (10 : ℕ) = 2 * 5 from rfl, Nat.mul_pow]
    exact Nat.mul_dvd_mul (pow_dvd_pow 2 (le_max_left a b))
      (pow_dvd_pow 5 (le_max_right a b))

theorem printNum_data_zero (q : ℚ) (hq : 0 ≤ q) (hk : decExp q.den = some 0) :
    (printNum q).data = natChars q.num.toNat := by
  rw [printNum, if_neg (not_lt.mpr hq)]
  simp only [printNumNN, hk]
  rfl

theorem printNum_data_succ (q : ℚ) (hq : 0 ≤ q) (k : Nat)
    (hk : decExp q.den = some (k + 1)) :
    (printNum q).data
      = natChars (q.num.toNat * 10 ^ (k + 1) / q.den / 10 ^ (k + 1))
        ++ ('.' :: padZeros (k + 1)
          (natChars (q.num.toNat * 10 ^ (k + 1) / q.den % 10 ^ (k + 1)))) := by
  rw [printNum, if_neg (not_lt.mpr hq)]
  simp only [printNumNN, hk]
  rw [strApp_data, strApp_data, List.append_assoc]
  rfl

theorem ratNum_toNat_cast (q : ℚ) (hq : 0 ≤ q) :
    ((q.num.toNat : ℚ)) = (q.num : ℚ) := by
  exact_mod_cast Int.toNat_of_nonneg (Rat.num_nonneg.mpr hq)

theorem parseJNum_printNum (q : ℚ) (hq : 0 ≤ q) (k : Nat)
    (hk : decExp q.den = some k) (rest : List Char)
    (hrest : ∀ c r, rest = c :: r → isDigitB c = false ∧ c ≠ '.') :
    parseJNum ((printNum q).data ++ rest) = some (q, rest) := by
  cases k with
  | zero =>
    rw [printNum_data_zero q hq hk]
    refine parseJNum_natChars _ _ ?_ rest hrest
    have hden1 : q.den = 1 := Nat.dvd_one.mp (by simpa using decExp_dvd hk)
    rw [ratNum_toNat_cast q hq]
    conv_rhs => rw [← Rat.num_div_den q]
    rw [hden1]
    simp
  | succ k =>
    rw [printNum_data_succ q hq k hk, List.append_assoc, List.cons_append]
    refine parseJNum_natChars_frac _ _ _ q (by omega)
      (Nat.mod_lt _ (pow_pos (by norm_num) (k + 1))) ?_ rest hrest
    set S := q.num.toNat * 10 ^ (k + 1) / q.den with hS
    have hdvd : q.den ∣ q.num.toNat * 10 ^ (k + 1) :=
      (decExp_dvd hk).mul_left _
    have hsc : S * q.den = q.num.toNat * 10 ^ (k + 1) :=
      Nat.div_mul_cancel hdvd
    have hden0 : ((q.den : ℚ)) ≠ 0 := ne_of_gt (by exact_mod_cast q.pos)
    have h10 : ((10 : ℚ)) ^ (k + 1) ≠ 0 := by positivity
    have hdm : 10 ^ (k + 1) * (S / 10 ^ (k + 1)) + S % 10 ^ (k + 1) = S :=
      Nat.div_add_mod S (10 ^ (k + 1))
    have key : (S : ℚ) = q * (10 : ℚ) ^ (k + 1) := by
      have hc : (S : ℚ) * (q.den : ℚ)
          = (q.num.toNat : ℚ) * (10 : ℚ) ^ (k + 1) := by exact_mod_cast hsc
      rw [ratNum_toNat_cast q hq] at hc
      have hqd : (q.num : ℚ) = q * (q.den : ℚ) :=
        (div_eq_iff hden0).mp (Rat.num_div_den q)
      rw [hqd] at hc
      exact mul_right_cancel₀ hden0 (by linear_combination hc)
    have hdmQ : (10 : ℚ) ^ (k + 1) * ((S / 10 ^ (k + 1) : Nat) : ℚ)
        + ((S % 10 ^ (k + 1) : Nat) : ℚ) = (S : ℚ) := by exact_mod_cast hdm
    have hmul : (((S / 10 ^ (k + 1) : Nat) : ℚ)
        + ((S % 10 ^ (k + 1) : Nat) : ℚ) / (10 : ℚ) ^ (k + 1))
          * (10 : ℚ) ^ (k + 1) = q * (10 : ℚ) ^ (k + 1) := by
      rw [add_mul, div_mul_cancel₀ _ h10, ← key]
      linear_combination hdmQ
    exact mul_right_cancel₀ h10 hmul

/-! ### `parseJVal` on encoded strings and numbers -/

theorem parseJVal_str (f : Nat) (ws : List Char)
    (hws : ∀ c ∈ ws, jsonWS c = true) (s : String) (rest : List Char) :
    parseJVal (f + 1) (ws ++ ('"' :: (encodeStrBody s.data ++ '"' :: rest)))
      = some (Json.str s, rest) := by
  have h1 : skipWS (ws ++ ('"' :: (encodeStrBody s.data ++ '"' :: rest)))
      = '"' :: (encodeStrBody s.data ++ '"' :: rest) := by
    rw [skipWS_append _ _ hws]
    exact skipWS_not_ws (by decide) _
  rw [parseJVal.eq_def]
  simp only [h1]
  rw [if_pos trivial, parseJStrL_encode]
  rfl

theorem printNum_head (q : ℚ) (hq : 0 ≤ q) (k : Nat)
    (hk : decExp q.den = some k) :
    ∃ c0 cs0, (printNum q).data = c0 :: cs0 ∧ isDigitB c0 = true := by
  cases k with
  | zero =>
    rw [printNum_data_zero q hq hk]
    obtain ⟨c0, cs0, h0⟩ :=
      List.exists_cons_of_ne_nil (natChars_ne_nil q.num.toNat)
    refine ⟨c0, cs0, h0, natChars_digits q.num.toNat c0 ?_⟩
    rw [h0]
    exact List.mem_cons_self _ _
  | succ k =>
    rw [printNum_data_succ q hq k hk]
    obtain ⟨c0, cs0, h0⟩ := List.exists_cons_of_ne_nil
      (natChars_ne_nil (q.num.toNat * 10 ^ (k + 1) / q.den / 10 ^ (k + 1)))
    refine ⟨c0, cs0 ++ ('.' :: padZeros (k + 1)
      (natChars (q.num.toNat * 10 ^ (k + 1) / q.den % 10 ^ (k + 1)))),
      ?_, natChars_digits
        (q.num.toNat * 10 ^ (k + 1) / q.den / 10 ^ (k + 1)) c0 ?_⟩
    · rw [h0]
      rfl
    · rw [h0]
      exact List.mem_cons_self _ _

theorem parseJVal_num (f : Nat) (ws : List Char)
    (hws : ∀ c ∈ ws, jsonWS c = true) (q : ℚ) (hq : 0 ≤ q) (k : Nat)
    (hk : decExp q.den = some k) (rest : List Char)
    (hrest : ∀ c r, rest = c :: r → isDigitB c = false ∧ c ≠ '.') :
    parseJVal (f + 1) (ws ++ ((printNum q).data ++ rest))
      = some (Json.num q, rest) := by
  obtain ⟨c0, cs0, hdata, hd0⟩ := printNum_head q hq k hk
  obtain ⟨hws0, hq1, hq2, hq3, hq4, hq5, hq6, hq7, hq8⟩ := digit_not_special hd0
  have h1 : skipWS (ws ++ ((printNum q).data ++ rest)) = c0 :: (cs0 ++ rest) := by
    rw [hdata, skipWS_append _ _ hws, List.cons_append]
    exact skipWS_not_ws hws0 _
  rw [parseJVal.eq_def]
  simp only [h1]
  rw [if_neg hq1, if_neg hq2, if_neg hq3, if_neg hq4, if_neg hq5, if_neg hq6]
  have hstream : c0 :: (cs0 ++ rest) = (printNum q).data ++ rest := by
    rw [hdata, List.cons_append]
  rw [hstream, parseJNum_printNum q hq k hk rest hrest]
  rfl

/-- A field triple (key, printed value characters, parsed value) whose
value parses back from any position followed by `,` or a newline. -/
def HvalF (x : String × List Char × Json) : Prop :=
  ∀ (g : Nat) (c : Char) (r2 : List Char), c = ',' ∨ c = '\n' →
    parseJVal (g + 1) (' ' :: (x.2.1 ++ (c :: r2))) = some (x.2.2, c :: r2)

theorem HvalF_str (k : String) (s : String) : HvalF (k, encodeStr s, Json.str s) := by
  intro g c r2 _
  have hs : (' ' :: (encodeStr s ++ (c :: r2)))
      = [' '] ++ ('"' :: (encodeStrBody s.data ++ '"' :: (c :: r2))) := by
    simp [encodeStr]
  rw [hs]
  exact parseJVal_str g [' '] (by decide) s (c :: r2)

theorem HvalF_num (k : String) (q : ℚ) (hq : 0 ≤ q) (kk : Nat)
    (hk : decExp q.den = some kk) :
    HvalF (k, (printNum q).data, Json.num q) := by
  intro g c r2 hc
  have hrest : ∀ c2 r, (c :: r2) = c2 :: r → isDigitB c2 = false ∧ c2 ≠ '.' := by
    intro c2 r h
    injection h with h1 h2
    subst h1
    rcases hc with rfl | rfl
    · exact ⟨by decide, by decide⟩
    · exact ⟨by decide, by decide⟩
  exact parseJVal_num g [' '] (by decide) q hq kk hk (c :: r2) hrest

/-! ### Parsing the printed fields of an object -/

/-- The character stream following a field value inside a printed object:
either the separator and the next field, or the closing brace line. -/
def fsCont : List (String × List Char × Json) → List Char → List Char
  | [], rest => '\n' :: (jIndent 2 ++ '}' :: rest)
  | x :: fs, rest =>
    ',' :: '\n' :: (jIndent 4 ++ ('"' :: (encodeStrBody x.1.data
      ++ '"' :: (':' :: ' ' :: (x.2.1 ++ fsCont fs rest)))))

/-- One field line (after its leading newline) followed by the
continuation. -/
def fsBody (x : String × List Char × Json)
    (fs : List (String × List Char × Json)) (rest : List Char) : List Char :=
  jIndent 4 ++ ('"' :: (encodeStrBody x.1.data
    ++ '"' :: (':' :: ' ' :: (x.2.1 ++ fsCont fs rest))))

theorem ws_nl_indent (n : Nat) : ∀ c ∈ '\n' :: jIndent n, jsonWS c = true := by
  intro c hc
  rcases List.mem_cons.mp hc with rfl | hc2
  · decide
  · rw [List.eq_of_mem_replicate hc2]
    decide

theorem parseJFields_last (f : Nat) (ws : List Char)
    (hws : ∀ c ∈ ws, jsonWS c = true) (key : String) (v : List Char)
    (vJ : Json) (rest : List Char)
    (hv : parseJVal f (' ' :: (v ++ ('\n' :: (jIndent 2 ++ '}' :: rest))))
      = some (vJ, '\n' :: (jIndent 2 ++ '}' :: rest))) :
    parseJFields (f + 1) (ws ++ ('"' :: (encodeStrBody key.data
      ++ '"' :: (':' :: ' ' :: (v ++ ('\n' :: (jIndent 2 ++ '}' :: rest)))))))
      = some ([(key, vJ)], rest) := by
  have h1 : skipWS (ws ++ ('"' :: (encodeStrBody key.data
      ++ '"' :: (':' :: ' ' :: (v ++ ('\n' :: (jIndent 2 ++ '}' :: rest)))))))
      = '"' :: (encodeStrBody key.data
        ++ '"' :: (':' :: ' ' :: (v ++ ('\n' :: (jIndent 2 ++ '}' :: rest))))) := by
    rw [skipWS_append _ _ hws]
    exact skipWS_not_ws (by decide) _
  have h2 : skipWS ('\n' :: (jIndent 2 ++ '}' :: rest)) = '}' :: rest := by
    show skipWS (('\n' :: jIndent 2) ++ ('}' :: rest)) = '}' :: rest
    rw [skipWS_append _ _ (ws_nl_indent 2)]
    exact skipWS_not_ws (by decide) _
  have h3 : skipWS (':' :: ' ' :: (v ++ ('\n' :: (jIndent 2 ++ '}' :: rest))))
      = ':' :: ' ' :: (v ++ ('\n' :: (jIndent 2 ++ '}' :: rest))) :=
    skipWS_not_ws (by decide) _
  rw [parseJFields.eq_def]
  simp only [h1]
  rw [if_pos trivial, parseJStrL_encode]
  simp only [h3]
  rw [if_pos trivial, hv]
  simp only [h2]
  rw [if_neg (by decide), if_pos trivial]

theorem parseJFields_cons (f : Nat) (ws : List Char)
    (hws : ∀ c ∈ ws, jsonWS c = true) (key : String) (v : List Char)
    (vJ : Json) (more : List Char) (flds : List (String × Json))
    (res : List Char)
    (hv : parseJVal f (' ' :: (v ++ (',' :: '\n' :: more)))
      = some (vJ, ',' :: '\n' :: more))
    (hrec : parseJFields f ('\n' :: more) = some (flds, res)) :
    parseJFields (f + 1) (ws ++ ('"' :: (encodeStrBody key.data
      ++ '"' :: (':' :: ' ' :: (v ++ (',' :: '\n' :: more))))))
      = some ((key, vJ) :: flds, res) := by
  have h1 : skipWS (ws ++ ('"' :: (encodeStrBody key.data
      ++ '"' :: (':' :: ' ' :: (v ++ (',' :: '\n' :: more))))))
      = '"' :: (encodeStrBody key.data
        ++ '"' :: (':' :: ' ' :: (v ++ (',' :: '\n' :: more)))) := by
    rw [skipWS_append _ _ hws]
    exact skipWS_not_ws (by decide) _
  have h2 : skipWS (',' :: '\n' :: more) = ',' :: '\n' :: more :=
    skipWS_not_ws (by decide) _
  have h3 : skipWS (':' :: ' ' :: (v ++ (',' :: '\n' :: more)))
      = ':' :: ' ' :: (v ++ (',' :: '\n' :: more)) :=
    skipWS_not_ws (by decide) _
  rw [parseJFields.eq_def]
  simp only [h1]
  rw [if_pos trivial, parseJStrL_encode]
  simp only [h3]
  rw [if_pos trivial, hv]
  simp only [h2]
  rw [if_pos trivial, hrec]
  rfl

theorem parseJFields_chain : ∀ (fs : List (String × List Char × Json))
    (x : String × List Char × Json) (g : Nat) (rest : List Char),
    fs.length + 2 ≤ g → HvalF x → (∀ y ∈ fs, HvalF y) →
    parseJFields g ('\n' :: fsBody x fs rest)
      = some ((x :: fs).map (fun y => (y.1, y.2.2)), rest) := by
  intro fs
  induction fs with
  | nil =>
    intro x g rest hg hx _
    obtain ⟨g1, rfl⟩ : ∃ g1, g = g1 + 2 := ⟨g - 2, by omega⟩
    have hv := hx g1 '\n' (jIndent 2 ++ '}' :: rest) (Or.inr rfl)
    exact parseJFields_last (g1 + 1) ('\n' :: jIndent 4) (ws_nl_indent 4)
      x.1 x.2.1 x.2.2 rest hv
  | cons y fs ih =>
    intro x g rest hg hx hfs
    obtain ⟨g2, rfl⟩ : ∃ g2, g = g2 + 2 := ⟨g - 2, by omega⟩
    have hv := hx g2 ',' ('\n' :: fsBody y fs rest) (Or.inl rfl)
    have hrec := ih y (g2 + 1) rest (by simp at hg ⊢; omega)
      (hfs y (List.mem_cons_self _ _))
      (fun z hz => hfs z (List.mem_cons_of_mem _ hz))
    exact parseJFields_cons (g2 + 1) ('\n' :: jIndent 4) (ws_nl_indent 4)
      x.1 x.2.1 x.2.2 (fsBody y fs rest) _ rest hv hrec

/-! ### Parsing a whole printed task object -/

/-- The first field triple of a printed task object. -/
def taskTrip1 (t : Task') : String × List Char × Json :=
  ("id", encodeStr t.id, Json.str t.id)

/-- The remaining field triples of a printed task object. -/
def taskTripR (t : Task') : List (String × List Char × Json) :=
  [("title", encodeStr t.title, Json.str t.title),
   ("dueDate", encodeStr t.dueDate, Json.str t.dueDate),
   ("duration", (printNum t.duration).data, Json.num t.duration),
   ("tag", encodeStr t.tag, Json.str t.tag),
   ("notes", encodeStr t.notes, Json.str t.notes),
   ("createdAt", encodeStr t.createdAt, Json.str t.createdAt),
   ("updatedAt", encodeStr t.updatedAt, Json.str t.updatedAt)]

theorem encodeTaskObj_stream (t : Task') (rest : List Char) :
    encodeTaskObj t ++ rest
      = '{' :: ('\n' :: fsBody (taskTrip1 t) (taskTripR t) rest) := by
  simp [encodeTaskObj, fieldLine, fsBody, fsCont, joinSep, encodeStr,
    taskTrip1, taskTripR, List.append_assoc]

theorem skipWS_fsBody (x : String × List Char × Json)
    (fs : List (String × List Char × Json)) (rest : List Char) :
    skipWS ('\n' :: fsBody x fs rest)
      = '"' :: (encodeStrBody x.1.data
        ++ '"' :: (':' :: ' ' :: (x.2.1 ++ fsCont fs rest))) := by
  show skipWS (('\n' :: jIndent 4) ++ ('"' :: (encodeStrBody x.1.data
    ++ '"' :: (':' :: ' ' :: (x.2.1 ++ fsCont fs rest))))) = _
  rw [skipWS_append _ _ (ws_nl_indent 4)]
  exact skipWS_not_ws (by decide) _

theorem parseJVal_taskObj (f : Nat) (ws : List Char)
    (hws : ∀ c ∈ ws, jsonWS c = true) (t : Task') (rest : List Char)
    (hd : 0 ≤ t.duration) (k : Nat) (hk : decExp t.duration.den = some k) :
    parseJVal (f + 10) (ws ++ (encodeTaskObj t ++ rest))
      = some (taskToJson t, rest) := by
  rw [encodeTaskObj_stream]
  have h1 : skipWS (ws ++ ('{' :: ('\n' :: fsBody (taskTrip1 t) (taskTripR t) rest)))
      = '{' :: ('\n' :: fsBody (taskTrip1 t) (taskTripR t) rest) := by
    rw [skipWS_append _ _ hws]
    exact skipWS_not_ws (by decide) _
  rw [parseJVal.eq_def]
  simp only [h1]
  rw [if_neg (by decide), if_neg (by decide), if_pos trivial]
  simp only [skipWS_fsBody]
  rw [if_neg (by decide)]
  rw [parseJFields_chain (taskTripR t) (taskTrip1 t) (f + 9) rest
    (by simp only [taskTripR, List.length_cons, List.length_nil]; omega)
    (HvalF_str "id" t.id) ?_]
  · rfl
  · intro y hy
    simp only [taskTripR, List.mem_cons, List.not_mem_nil, or_false] at hy
    rcases hy with rfl | rfl | rfl | rfl | rfl | rfl | rfl
    · exact HvalF_str _ _
    · exact HvalF_str _ _
    · exact HvalF_num _ t.duration hd k hk
    · exact HvalF_str _ _
    · exact HvalF_str _ _
    · exact HvalF_str _ _
    · exact HvalF_str _ _

/-! ### Parsing the printed array of task objects -/

/-- The character stream following one printed task inside the array:
either the separator and the next task, or the closing bracket line. -/
def itemsCont : List Task' → List Char
  | [] => '\n' :: [']']
  | t :: ts => ',' :: '\n' :: (jIndent 2 ++ (encodeTaskObj t ++ itemsCont ts))

theorem joinStream : ∀ (ts : List Task') (t : Task'),
    joinSep [',', '\n'] ((t :: ts).map (fun u => jIndent 2 ++ encodeTaskObj u))
        ++ '\n' :: [']']
      = jIndent 2 ++ (encodeTaskObj t ++ itemsCont ts) := by
  intro ts
  induction ts with
  | nil =>
    intro t
    simp [joinSep, itemsCont, List.append_assoc]
  | cons t2 ts2 ih =>
    intro t
    simp only [List.map_cons, joinSep]
    simp only [List.append_assoc, List.cons_append, List.nil_append]
    simp only [List.map_cons] at ih
    rw [ih t2]
    simp [itemsCont, List.append_assoc]

theorem exportJSON_data (t : Task') (ts : List Task') :
    (exportJSON (t :: ts)).data
      = '[' :: ('\n' :: (jIndent 2 ++ (encodeTaskObj t ++ itemsCont ts))) := by
  show '[' :: '\n' :: joinSep [',', '\n']
      ((t :: ts).map (fun u => jIndent 2 ++ encodeTaskObj u)) ++ '\n' :: [']'] = _
  rw [show ('[' :: '\n' :: joinSep [',', '\n']
      ((t :: ts).map (fun u => jIndent 2 ++ encodeTaskObj u)) ++ '\n' :: [']'] : List Char)
    = '[' :: ('\n' :: (joinSep [',', '\n']
      ((t :: ts).map (fun u => jIndent 2 ++ encodeTaskObj u)) ++ '\n' :: [']'])) from rfl]
  rw [joinStream ts t]

theorem parseJItems_chain : ∀ (ts : List Task') (t : Task') (g : Nat)
    (ws : List Char), (∀ c ∈ ws, jsonWS c = true) →
    (∀ u ∈ t :: ts, 0 ≤ u.duration ∧ ∃ k, decExp u.duration.den = some k) →
    ts.length + 11 ≤ g →
    parseJItems g (ws ++ (encodeTaskObj t ++ itemsCont ts))
      = some ((t :: ts).map taskToJson, []) := by
  intro ts
  induction ts with
  | nil =>
    intro t g ws hws hd hg
    obtain ⟨g1, rfl⟩ : ∃ g1, g = g1 + 11 := ⟨g - 11, by omega⟩
    obtain ⟨hd0, k, hk⟩ := hd t (List.mem_cons_self _ _)
    have hobj := parseJVal_taskObj g1 ws hws t (itemsCont []) hd0 k hk
    rw [parseJItems.eq_def]
    simp only [hobj]
    rw [show skipWS (itemsCont []) = [']'] from rfl]
    simp
  | cons t2 ts2 ih =>
    intro t g ws hws hd hg
    obtain ⟨g1, rfl⟩ : ∃ g1, g = g1 + 11 := ⟨g - 11, by omega⟩
    obtain ⟨hd0, k, hk⟩ := hd t (List.mem_cons_self _ _)
    have hobj := parseJVal_taskObj g1 ws hws t (itemsCont (t2 :: ts2)) hd0 k hk
    rw [parseJItems.eq_def]
    simp only [hobj]
    rw [show itemsCont (t2 :: ts2)
      = ',' :: '\n' :: (jIndent 2 ++ (encodeTaskObj t2 ++ itemsCont ts2)) from rfl]
    rw [show skipWS (',' :: '\n' :: (jIndent 2 ++ (encodeTaskObj t2 ++ itemsCont ts2)))
      = ',' :: '\n' :: (jIndent 2 ++ (encodeTaskObj t2 ++ itemsCont ts2))
      from skipWS_not_ws (by decide) _]
    have ihx := ih t2 (g1 + 10) ('\n' :: jIndent 2) (ws_nl_indent 2)
      (fun u hu => hd u (List.mem_cons_of_mem _ hu)) (by simp at hg ⊢; omega)
    rw [List.cons_append] at ihx
    simp [ihx]

theorem itemsCont_len : ∀ ts : List Task', ts.length + 2 ≤ (itemsCont ts).length := by
  intro ts
  induction ts with
  | nil => simp [itemsCont]
  | cons t ts ih =>
    show ts.length + 1 + 2 ≤ (',' :: '\n' :: (jIndent 2 ++ (encodeTaskObj t ++ itemsCont ts))).length
    simp only [List.length_cons, List.length_append]
    omega

theorem parseJson_export (tasks : List Task')
    (hd : ∀ u ∈ tasks, 0 ≤ u.duration ∧ ∃ k, decExp u.duration.den = some k) :
    parseJson (exportJSON tasks) = .ok (Json.arr (tasks.map taskToJson)) := by
  cases tasks with
  | nil => rfl
  | cons t ts =>
    have hdata := exportJSON_data t ts
    have hlen : (exportJSON (t :: ts)).length
        = ('[' :: ('\n' :: (jIndent 2 ++ (encodeTaskObj t ++ itemsCont ts)))).length := by
      rw [← hdata]
      rfl
    have hcont := itemsCont_len ts
    have hbound : ts.length + 12 ≤ 2 * (exportJSON (t :: ts)).length + 8 := by
      rw [hlen]
      simp only [List.length_cons, List.length_append]
      omega
    unfold parseJson
    obtain ⟨g1, hg⟩ : ∃ g1, 2 * (exportJSON (t :: ts)).length + 8 = (g1 + 11) + 1 :=
      ⟨2 * (exportJSON (t :: ts)).length + 8 - 12, by omega⟩
    rw [hg, hdata]
    rw [parseJVal.eq_def]
    simp only [show skipWS ('[' :: ('\n' :: (jIndent 2 ++ (encodeTaskObj t ++ itemsCont ts))))
      = '[' :: ('\n' :: (jIndent 2 ++ (encodeTaskObj t ++ itemsCont ts)))
      from skipWS_not_ws (by decide) _]
    rw [if_neg (by decide), if_pos trivial]
    obtain ⟨Y, hYe⟩ : ∃ Y, encodeTaskObj t ++ itemsCont ts = '{' :: Y := ⟨_, rfl⟩
    have hsk : skipWS ('\n' :: (jIndent 2 ++ (encodeTaskObj t ++ itemsCont ts)))
        = '{' :: Y := by
      show skipWS (('\n' :: jIndent 2) ++ (encodeTaskObj t ++ itemsCont ts)) = _
      rw [skipWS_append _ _ (ws_nl_indent 2), hYe]
      exact skipWS_not_ws (by decide) _
    simp only [hsk]
    rw [if_neg (by decide)]
    have hitems := parseJItems_chain ts t (g1 + 11) ('\n' :: jIndent 2)
      (ws_nl_indent 2) hd (by omega)
    rw [List.cons_append] at hitems
    rw [hitems]
    rfl

/-! ### The import checks on a parsed exported task -/

/-- The parsed field list of one printed task object. -/
def taskFields (t : Task') : List (String × Json) :=
  [("id", Json.str t.id), ("title", Json.str t.title),
   ("dueDate", Json.str t.dueDate), ("duration", Json.num t.duration),
   ("tag", Json.str t.tag), ("notes", Json.str t.notes),
   ("createdAt", Json.str t.createdAt), ("updatedAt", Json.str t.updatedAt)]

theorem taskToJson_eq (t : Task') : taskToJson t = Json.obj (taskFields t) := rfl

theorem tf_id (t : Task') : jStrField (taskFields t) "id" = some t.id := rfl

theorem tf_title (t : Task') : jStrField (taskFields t) "title" = some t.title := rfl

theorem tf_due (t : Task') : jStrField (taskFields t) "dueDate" = some t.dueDate := rfl

theorem tf_dur (t : Task') : jNumField (taskFields t) "duration" = some t.duration := rfl

theorem tf_tag (t : Task') : jStrField (taskFields t) "tag" = some t.tag := rfl

theorem tf_notes (t : Task') : jStrField (taskFields t) "notes" = some t.notes := rfl

theorem tf_created (t : Task') : jStrField (taskFields t) "createdAt" = some t.createdAt := rfl

theorem tf_updated (t : Task') : jStrField (taskFields t) "updatedAt" = some t.updatedAt := rfl

/-- A stored record that satisfies every check of `validateImport` and
is already normalized in `title` and `tag`; `notes` is deliberately not
constrained. -/
def validRecord (t : Task') : Prop :=
  jsTrim t.id ≠ "" ∧ jsTrim t.title = t.title ∧ t.title ≠ ""
  ∧ jsTrim t.tag = t.tag ∧ t.tag ≠ ""
  ∧ 0 ≤ t.duration ∧ (decExp t.duration.den).isSome = true
  ∧ datePatL t.dueDate.data = true
  ∧ t.createdAt ≠ "" ∧ t.updatedAt ≠ ""

instance validRecordDec (t : Task') : Decidable (validRecord t) := by
  unfold validRecord
  infer_instance

theorem checkTaskItem_rt (t : Task') (now : String) (h : validRecord t) :
    checkTaskItem (taskFields t) now
      = ([], some { t with notes := jsTrim t.notes }) := by
  obtain ⟨h1, h2, h3, h4, h5, h6, h7, h8, h9, h10⟩ := h
  have hidB : strOkB (some t.id) = true := by simpa [strOkB] using h1
  have htitleB : strOkB (some t.title) = true := by
    simp [strOkB, h2]
    exact h3
  have htagB : strOkB (some t.tag) = true := by
    simp [strOkB, h4]
    exact h5
  have hdurB : decide (¬ t.duration < 0) = true := by simpa [not_lt] using h6
  unfold checkTaskItem
  simp only [tf_id, tf_title, tf_due, tf_dur, tf_tag, tf_notes, tf_created,
    tf_updated, hidB, htitleB, htagB, hdurB, h8]
  simp [h2, h4, h9, h10]

theorem importItems_rt : ∀ (ts : List Task') (i : Nat) (now : String),
    (∀ u ∈ ts, validRecord u) →
    importItems now i (ts.map taskToJson)
      = (ts.map (fun u => { u with notes := jsTrim u.notes }), []) := by
  intro ts
  induction ts with
  | nil => intro i now _; rfl
  | cons t ts ih =>
    intro i now h
    have hc := checkTaskItem_rt t now (h t (List.mem_cons_self _ _))
    have hrec := ih (i + 1) now (fun u hu => h u (List.mem_cons_of_mem _ hu))
    simp only [List.map_cons]
    rw [importItems.eq_def]
    simp only [taskToJson_eq, hrec, hc]

/-! ### Claim C8 theorems -/

/-- A record valid for import whose notes carry surrounding whitespace. -/
def rtTask : Task' :=
  ⟨"a", "T", "2025-01-01", 5, "Study", " x ", "c1", "u1"⟩

/-- A record valid for import with already-trimmed notes and a
fractional duration. -/
def wTask : Task' :=
  ⟨"task_9", "Read chapter", "2025-09-29", mkRat 15 2, "Study", "ok",
   "2025-09-01T00:00:00.000Z", "2025-09-01T00:00:00.000Z"⟩

/-- C8 (counterexample): exporting a single already-valid record whose
`notes` is `" x "` and importing the result succeeds with no errors,
but the imported data is NOT equal to the input records — the notes
come back trimmed to `"x"`. -/
theorem claim8_counterexample :
    validRecord rtTask
    ∧ (validateImport (exportJSON [rtTask]) "now").valid = true
    ∧ (validateImport (exportJSON [rtTask]) "now").errors = []
    ∧ (validateImport (exportJSON [rtTask]) "now").data ≠ [rtTask]
    ∧ (validateImport (exportJSON [rtTask]) "now").data
        = [{ rtTask with notes := "x" }] := by
  decide

/-- C8 (amended): for every collection of already-valid task records
(non-blank trimmed id, title and tag already trimmed and non-empty,
non-negative duration with a finite decimal expansion, dueDate matching
the date pattern, non-empty timestamps), `validateImport (exportJSON
tasks)` returns `valid = true`, an empty error list, and the input
records with `notes` replaced by its trimmed form — equality holds
field-for-field except that `notes` is re-trimmed on import. -/
theorem claim8_roundTrip (tasks : List Task') (now : String)
    (h : ∀ t ∈ tasks, validRecord t) :
    validateImport (exportJSON tasks) now
      = ⟨true, tasks.map (fun t => { t with notes := jsTrim t.notes }), []⟩ := by
  have hd : ∀ u ∈ tasks, 0 ≤ u.duration ∧ ∃ k, decExp u.duration.den = some k := by
    intro u hu
    obtain ⟨_, _, _, _, _, h6, h7, _, _, _⟩ := h u hu
    exact ⟨h6, Option.isSome_iff_exists.mp h7⟩
  unfold validateImport
  rw [parseJson_export tasks hd]
  simp only [importItems_rt tasks 0 now h]
  rfl

/-- C8 witness: a concrete valid record with fractional duration `7.5`
round-trips through export and import. -/
theorem claim8_witness :
    validateImport (exportJSON [wTask]) "2025-10-01T00:00:00.000Z"
      = ⟨true, [wTask].map (fun t => { t with notes := jsTrim t.notes }), []⟩ :=
  claim8_roundTrip [wTask] "2025-10-01T00:00:00.000Z" (by decide)
